import Mathlib

/-!
Verification development for the istsos-metadata-connector harvester
(`app/harvester.py`, `app/api.py`).

JSON values parsed by `json.loads` / produced by the normalizer are modelled
by the inductive type `Value`.  Numeric literals are modelled as integers
(`vInt`); the harvester performs no arithmetic on them, so float formatting
is immaterial to every property proved here.  Python `dict`s are modelled as
association lists with unique keys (`insertPD` replaces in place like a dict
assignment; lookups take the first match, as key-unique dicts behave).
-/

inductive Value where
  | vNull : Value
  | vBool : Bool → Value
  | vInt : Int → Value
  | vStr : String → Value
  | vObj : List (String × Value) → Value
  | vArr : List Value → Value

/-- A normalized metadata record (a Python `Dict[str, Any]`): its fields. -/
abbrev Record := List (String × Value)

/-- A signature map as parsed from the state file (`Dict[str, str]` in normal
operation, but JSON can carry arbitrary values). -/
abbrev SigMap := List (String × Value)

/-- First-match association-list lookup (Python `dict` lookup; keys of a
Python dict are unique, so first-match is exact). -/
def lookupF : List (String × α) → String → Option α
  | [], _ => none
  | (k0, v) :: rest, k => if k0 = k then some v else lookupF rest k

/-- Python `key in d`. -/
def containsKey (l : List (String × α)) (k : String) : Bool :=
  (lookupF l k).isSome

/-- Replace the binding at key `k` (helper of `insertPD`). -/
def replacePD (k : String) (v : α) (p : String × α) : String × α :=
  if p.1 = k then (k, v) else p

/-- Python `d[key] = v`: replaces the value at an existing key in place,
otherwise appends the new binding (dicts preserve insertion order). -/
def insertPD (l : List (String × α)) (k : String) (v : α) : List (String × α) :=
  if containsKey l k then
    l.map (replacePD k v)
  else
    l ++ [(k, v)]

/-- Python `d.get(key)`: `None` when the key is absent. -/
def pyGet (r : List (String × Value)) (k : String) : Value :=
  (lookupF r k).getD .vNull

/-- Python `d.get(key, default)`. -/
def pyGetD (r : List (String × Value)) (k : String) (d : Value) : Value :=
  (lookupF r k).getD d

/-- Indexing into a JSON object value (`doc["features"]`); `vNull` on any
other shape. -/
def vGet (v : Value) (k : String) : Value :=
  match v with
  | .vObj fs => pyGet fs k
  | _ => .vNull

/-- Python `x is None` on a parsed JSON value. -/
def isVNull : Value → Bool
  | .vNull => true
  | _ => false

/-- Python truthiness of a parsed JSON value: `None`, `False`, `0`, `""`,
`{}` and `[]` are falsy. -/
def isFalsy : Value → Bool
  | .vNull => true
  | .vBool b => !b
  | .vInt i => i == 0
  | .vStr s => s == ""
  | .vObj fs => fs.isEmpty
  | .vArr xs => xs.isEmpty

/-- Python `a or b` on parsed JSON values. -/
def pyOr (a b : Value) : Value :=
  if isFalsy a then b else a

/-- Python `a or None` (used for the STAC datetime fields). -/
def pyOrNone (a : Value) : Value :=
  if isFalsy a then .vNull else a

/-! ### Key ordering and canonical (key-sorted) form

`json.dumps(..., sort_keys=True)` sorts every object's items by their string
key; Python compares strings lexicographically by Unicode code point, which
`lexLe` implements on the underlying character lists. -/

/-- Code-point lexicographic `≤` on character lists (Python string `<=`). -/
def lexLe : List Char → List Char → Bool
  | [], _ => true
  | _ :: _, [] => false
  | a :: as, b :: bs =>
    if a.toNat < b.toNat then true
    else if b.toNat < a.toNat then false
    else lexLe as bs

/-- Key order used by `sort_keys=True`. -/
def keyLe (a b : String × Value) : Bool :=
  lexLe a.1.data b.1.data

/-- Insert one field into a key-sorted field list. -/
def insortKey (p : String × Value) : List (String × Value) → List (String × Value)
  | [] => [p]
  | q :: rest => if keyLe p q then p :: q :: rest else q :: insortKey p rest

/-- Sort a field list by key (the `sorted(d.items())` step of
`json.dumps(..., sort_keys=True)`). -/
def sortFields : List (String × Value) → List (String × Value)
  | [] => []
  | p :: rest => insortKey p (sortFields rest)

mutual
/-- The canonical form of a value: every object's fields recursively sorted
by key.  `json.dumps(..., sort_keys=True)` serializes exactly this form. -/
def canonV : Value → Value
  | .vObj fs => .vObj (sortFields (canonFields fs))
  | .vArr xs => .vArr (canonElems xs)
  | v => v
def canonFields : List (String × Value) → List (String × Value)
  | [] => []
  | (k, v) :: rest => (k, canonV v) :: canonFields rest
def canonElems : List Value → List Value
  | [] => []
  | v :: rest => canonV v :: canonElems rest
end

/-! ### JSON serialization (`json.dumps` with `ensure_ascii=False`)

Default separators are `", "` between items and `": "` after keys.  String
escaping handles the double quote, backslash and the common control
characters `\n`, `\t`, `\r`; Python renders rarer control characters as
`\uXXXX` escapes, which no harvested field contains and which are not
modelled. -/

/-- Escape of one character inside a JSON string literal. -/
def escC (c : Char) : List Char :=
  if c = '"' then ['\\', '"']
  else if c = '\\' then ['\\', '\\']
  else if c = '\n' then ['\\', 'n']
  else if c = '\t' then ['\\', 't']
  else if c = '\r' then ['\\', 'r']
  else [c]

/-- The character encoded by a two-character escape `\d` (for proofs). -/
def escCode (d : Char) : Option Char :=
  if d = '"' then some '"'
  else if d = '\\' then some '\\'
  else if d = 'n' then some '\n'
  else if d = 't' then some '\t'
  else if d = 'r' then some '\r'
  else none

/-- Escape a character list. -/
def escS : List Char → List Char
  | [] => []
  | c :: cs => escC c ++ escS cs

/-- A JSON string literal. -/
def quoteS (s : String) : List Char :=
  '"' :: escS s.data ++ ['"']

/-- Decimal digits of a natural number, most significant first; written with
explicit fuel so that it is structurally recursive (and hence reduces
definitionally). -/
def natCharsCore : Nat → Nat → List Char → List Char
  | 0, _, acc => acc
  | fuel + 1, n, acc =>
    if n < 10 then Nat.digitChar n :: acc
    else natCharsCore fuel (n / 10) (Nat.digitChar (n % 10) :: acc)

/-- Decimal representation of a natural number. -/
def natChars (n : Nat) : List Char :=
  natCharsCore (n + 1) n []

/-- Numeric value of a digit list (for injectivity proofs). -/
def digitsVal (l : List Char) : Nat :=
  l.foldl (fun a c => a * 10 + (c.toNat - 48)) 0

/-- Decimal representation of an integer (Python `json.dumps` of an `int`). -/
def intChars (i : Int) : List Char :=
  if i < 0 then '-' :: natChars (-i).toNat else natChars i.toNat

mutual
/-- Serialization of an (already canonical) value, following `json.dumps`
with `ensure_ascii=False`: objects as `{"k": v, ...}` in field order, arrays
as `[v, ...]`. -/
def serV : Value → List Char
  | .vNull => ['n', 'u', 'l', 'l']
  | .vBool true => ['t', 'r', 'u', 'e']
  | .vBool false => ['f', 'a', 'l', 's', 'e']
  | .vInt i => intChars i
  | .vStr s => quoteS s
  | .vObj fs => '{' :: serF fs ++ ['}']
  | .vArr xs => '[' :: serA xs ++ [']']
def serF : List (String × Value) → List Char
  | [] => []
  | (k, v) :: rest =>
    quoteS k ++ ':' :: ' ' :: serV v ++
      (match rest with
       | [] => []
       | _ :: _ => ',' :: ' ' :: serF rest)
def serA : List Value → List Char
  | [] => []
  | v :: rest =>
    serV v ++
      (match rest with
       | [] => []
       | _ :: _ => ',' :: ' ' :: serA rest)
end

/-- `record_signature(record)`: `json.dumps(record, sort_keys=True,
ensure_ascii=False)` — the serialization of the record with all object keys
sorted, i.e. of its canonical form. -/
def record_signature (record : Record) : String :=
  String.mk (serV (canonV (.vObj record)))

/-- Python `str()` of a parsed JSON value, as used to build identity keys
(`str(datastream_id)`).  Identity keys are scalars in practice; for the
container cases Python renders `repr`, whose exact text (quote style) is
irrelevant to every claim, so containers are rendered in JSON style here. -/
def pyStr : Value → String
  | .vNull => "None"
  | .vBool true => "True"
  | .vBool false => "False"
  | .vInt i => String.mk (intChars i)
  | .vStr s => s
  | v => String.mk (serV v)

/-! ### The Reconciler (`apply_incremental_harvest`) -/

structure ReconState where
  final_records : List Record
  signatures : SigMap
  created : Nat
  updated : Nat
  unchanged : Nat

structure HarvestStats where
  created : Nat
  updated : Nat
  unchanged : Nat
  total : Nat

structure ReconOut where
  final_records : List Record
  signatures : SigMap
  stats : HarvestStats

/-- Python `previous_signatures.get(key) == current_signature`: the right
operand is a `str`, so the comparison holds only when the stored value is
that same string (`None` or a non-string value compares unequal). -/
def sigMatches (old : Option Value) (s : String) : Bool :=
  match old with
  | some (.vStr t) => t == s
  | _ => false

/-- The body of the `for record in current_records` loop of
`apply_incremental_harvest`. -/
def reconStep (previous_by_id : List (String × Record)) (previous_signatures : SigMap)
    (st : ReconState) (record : Record) : ReconState :=
  let datastream_id := pyGet record "datastream_id"
  if isVNull datastream_id then st
  else
    let key := pyStr datastream_id
    let current_signature := record_signature record
    let old_signature := lookupF previous_signatures key
    let st1 :=
      if sigMatches old_signature current_signature && containsKey previous_by_id key then
        { st with
            final_records := st.final_records ++ [(lookupF previous_by_id key).getD record],
            unchanged := st.unchanged + 1 }
      else if containsKey previous_signatures key then
        { st with final_records := st.final_records ++ [record], updated := st.updated + 1 }
      else
        { st with final_records := st.final_records ++ [record], created := st.created + 1 }
    { st1 with signatures := insertPD st1.signatures key (.vStr current_signature) }

/-- One step of indexing `previous_records` by `str(datastream_id)`
(`if datastream_id is not None: previous_by_id[str(datastream_id)] = record`). -/
def idxStep (m : List (String × Record)) (record : Record) : List (String × Record) :=
  let datastream_id := pyGet record "datastream_id"
  if isVNull datastream_id then m else insertPD m (pyStr datastream_id) record

/-- The `previous_by_id` lookup table (last entry wins on duplicate keys). -/
def previous_by_id (previous_records : List Record) : List (String × Record) :=
  previous_records.foldl idxStep []

/-- `apply_incremental_harvest(current_records, previous_records,
previous_signatures)` from `app/harvester.py`. -/
def apply_incremental_harvest (current_records previous_records : List Record)
    (previous_signatures : SigMap) : ReconOut :=
  let pbi := previous_by_id previous_records
  let st := current_records.foldl (reconStep pbi previous_signatures)
    ⟨[], [], 0, 0, 0⟩
  ⟨st.final_records, st.signatures,
    ⟨st.created, st.updated, st.unchanged, st.final_records.length⟩⟩

/-! ### Derived vocabulary for the reconciler theorems -/

/-- A record passes the `datastream_id is None` drop test. -/
def isKeyed (record : Record) : Bool :=
  !isVNull (pyGet record "datastream_id")

/-- The identity key of a record: `str(record.get("datastream_id"))`. -/
def keyOf (record : Record) : String :=
  pyStr (pyGet record "datastream_id")

/-- The unchanged-classification condition of the loop. -/
def unchB (pbi : List (String × Record)) (ps : SigMap) (r : Record) : Bool :=
  sigMatches (lookupF ps (keyOf r)) (record_signature r) && containsKey pbi (keyOf r)

/-- `key in previous_signatures` (the updated-vs-created test). -/
def updB (ps : SigMap) (r : Record) : Bool :=
  containsKey ps (keyOf r)

/-- The record emitted for one keyed current record. -/
def emit (pbi : List (String × Record)) (ps : SigMap) (r : Record) : Record :=
  if unchB pbi ps r then (lookupF pbi (keyOf r)).getD r else r

/-- `signatures[key] = current_signature`. -/
def insSig (m : SigMap) (r : Record) : SigMap :=
  insertPD m (keyOf r) (.vStr (record_signature r))

/-! ### Catalog projectors -/

/-- Python `root_href.rstrip("/")`. -/
def rstripSlash (s : String) : String :=
  String.mk ((s.data.reverse.dropWhile (fun c => c == '/')).reverse)

/-- One STAC feature, as built in the loop body of
`build_stac_item_collection`. -/
def stac_feature (collection_id normalized_root : String) (record : Record) : Value :=
  let item_id := "datastream-" ++ pyStr (pyGet record "datastream_id")
  let item_self_href := normalized_root ++ "/items/" ++ item_id
  let geomBbox : Value × Value :=
    match pyGet record "location" with
    | .vObj lo =>
        if containsKey lo "lat" && containsKey lo "lon" then
          (.vObj [("type", .vStr "Point"),
                  ("coordinates", .vArr [pyGet lo "lon", pyGet lo "lat"])],
           .vArr [pyGet lo "lon", pyGet lo "lat", pyGet lo "lon", pyGet lo "lat"])
        else (.vNull, .vNull)
    | _ => (.vNull, .vNull)
  .vObj [("type", .vStr "Feature"),
         ("stac_version", .vStr "1.0.0"),
         ("id", .vStr item_id),
         ("collection", .vStr collection_id),
         ("geometry", geomBbox.1),
         ("bbox", geomBbox.2),
         ("properties", .vObj [
            ("thing_id", pyGet record "thing_id"),
            ("thing_name", pyGetD record "thing_name" (.vStr "")),
            ("description", pyGetD record "description" (.vStr "")),
            ("sensor_type", pyGetD record "sensor_type" (.vStr "")),
            ("observed_property", pyGetD record "observed_property" (.vStr "")),
            ("unit_of_measurement", pyGetD record "unit_of_measurement" (.vStr "")),
            ("observation_type", pyGetD record "observation_type" (.vStr "")),
            ("sampling_frequency", pyGetD record "sampling_frequency" (.vStr "")),
            ("time_range", pyGetD record "time_range" (.vStr "")),
            ("datastream_id", pyGet record "datastream_id"),
            ("start_datetime", pyOrNone (pyGet record "start_time")),
            ("end_datetime", pyOrNone (pyGet record "end_time")),
            ("datetime", pyOrNone (pyGet record "last_observation_time"))]),
         ("links", .vArr [
            .vObj [("rel", .vStr "self"), ("href", .vStr item_self_href)],
            .vObj [("rel", .vStr "root"), ("href", .vStr normalized_root)]]),
         ("assets", .vObj [])]

/-- `build_stac_item_collection(records, collection_id, root_href)`. -/
def build_stac_item_collection (records : List Record)
    (collection_id root_href : String) : Value :=
  let normalized_root := rstripSlash root_href
  let features := records.foldl
    (fun fs record =>
      if isVNull (pyGet record "datastream_id") then fs
      else fs ++ [stac_feature collection_id normalized_root record]) []
  .vObj [("type", .vStr "FeatureCollection"),
         ("links", .vArr [
            .vObj [("rel", .vStr "self"), ("href", .vStr (normalized_root ++ "/items"))],
            .vObj [("rel", .vStr "root"), ("href", .vStr normalized_root)]]),
         ("features", .vArr features)]

/-- One DCAT dataset, as built in the loop body of `build_dcat_catalog`. -/
def dcat_dataset (record : Record) : Value :=
  let dataset_id := "datastream-" ++ pyStr (pyGet record "datastream_id")
  let base : List (String × Value) := [
    ("@id", .vStr dataset_id),
    ("@type", .vStr "dcat:Dataset"),
    ("dct:identifier", .vStr dataset_id),
    ("dct:title", pyOr (pyGet record "datastream_name") (pyGetD record "thing_name" (.vStr ""))),
    ("dct:description", pyGetD record "description" (.vStr "")),
    ("dcat:keyword", .vArr [pyGetD record "observed_property" (.vStr ""),
                            pyGetD record "sensor_type" (.vStr "")]),
    ("dct:temporal", .vObj [("schema:startDate", pyGetD record "start_time" (.vStr "")),
                            ("schema:endDate", pyGetD record "end_time" (.vStr ""))])]
  let withSpatial :=
    match pyGet record "location" with
    | .vObj lo =>
        if containsKey lo "lat" && containsKey lo "lon" then
          base ++ [("dct:spatial", .vObj [
            ("@type", .vStr "dct:Location"),
            ("locn:geometry", .vObj [("type", .vStr "Point"),
              ("coordinates", .vArr [pyGet lo "lon", pyGet lo "lat"])])])]
        else base
    | _ => base
  .vObj withSpatial

/-- `build_dcat_catalog(records)`. -/
def build_dcat_catalog (records : List Record) : Value :=
  let datasets := records.foldl
    (fun ds record =>
      if isVNull (pyGet record "datastream_id") then ds
      else ds ++ [dcat_dataset record]) []
  .vObj [("@context", .vObj [
            ("dcat", .vStr "http://www.w3.org/ns/dcat#"),
            ("dct", .vStr "http://purl.org/dc/terms/"),
            ("locn", .vStr "http://www.w3.org/ns/locn#"),
            ("schema", .vStr "https://schema.org/")]),
         ("@type", .vStr "dcat:Catalog"),
         ("dcat:dataset", .vArr datasets)]

/-! ### The Normalizer's location rule (`_extract_location`) -/

/-- Python `isinstance(x, (int, float))` on a parsed JSON value, with its
numeric result; `bool` is a subclass of `int` in Python, so booleans pass
(`float(True) == 1.0`). -/
def numVal : Value → Option Int
  | .vInt i => some i
  | .vBool b => some (if b then 1 else 0)
  | _ => none

/-- `_extract_location(thing)`.  `Except.error ()` marks inputs on which the
Python code raises (`locations[0]` on a truthy non-list, or `.get` on a
non-dict first entry); every other shape returns without error. -/
def extract_location (thing : Record) : Except Unit (Option Value) :=
  let locations := pyOr (pyGet thing "Locations") (.vArr [])
  if isFalsy locations then .ok none
  else
    match locations with
    | .vArr (first :: _) =>
        match first with
        | .vObj fo =>
            match pyGet fo "location" with
            | .vObj lo =>
                match pyGet lo "coordinates" with
                | .vArr (c0 :: c1 :: _) =>
                    match numVal c0, numVal c1 with
                    | some lon, some lat =>
                        .ok (some (.vObj [("lat", .vInt lat), ("lon", .vInt lon)]))
                    | _, _ => .ok none
                | _ => .ok none
            | _ => .ok none
        | _ => .error ()
    | _ => .error ()

/-! ### Persisted-state loading (`load_json_file` and the incremental
prelude of `main` / `refresh_metadata`) -/

/-- What reading a persisted JSON file can yield: the file is absent, it is
unreadable or holds invalid JSON, or it parses to a value. -/
inductive FileState where
  | missing : FileState
  | invalid : FileState
  | valid : Value → FileState

/-- `load_json_file(path, default)`: the default on a missing file or on
`JSONDecodeError` / `OSError`, the parsed value otherwise. -/
def load_json_file : FileState → Value → Value
  | .missing, d => d
  | .invalid, d => d
  | .valid v, _ => v

/-- Elementwise view of a parsed records array as `Record`s.  The reconciler
calls `record.get` on every element of `previous_records`, so a non-object
element raises in Python; that latent error is surfaced here at conversion
time. -/
def toRecordList : List Value → Except Unit (List Record)
  | [] => .ok []
  | .vObj fs :: rest => (toRecordList rest).map (fun rs => fs :: rs)
  | _ :: _ => .error ()

/-- The incremental-mode state-loading prelude shared by `main`
(`harvester.py`) and `refresh_metadata` (`api.py`):

    previous_records = load_json_file(output, [])
    state_payload = load_json_file(state_file, {"signatures": {}})
    previous_signatures = state_payload.get("signatures", {})
    if not isinstance(previous_signatures, dict): previous_signatures = {}
    ... previous_records if isinstance(previous_records, list) else [] ...

`state_payload.get` raises when the state file holds valid JSON that is not
an object. -/
def load_incremental_state (recordsFile stateFile : FileState) :
    Except Unit (List Record × SigMap) :=
  let previous_records := load_json_file recordsFile (.vArr [])
  let state_payload := load_json_file stateFile (.vObj [("signatures", .vObj [])])
  match state_payload with
  | .vObj fields =>
      let previous_signatures := (lookupF fields "signatures").getD (.vObj [])
      let sigs : SigMap :=
        match previous_signatures with
        | .vObj gs => gs
        | _ => []
      let recsArr : List Value :=
        match previous_records with
        | .vArr xs => xs
        | _ => []
      (toRecordList recsArr).map (fun rs => (rs, sigs))
  | _ => .error ()

/-- Tails that can legally follow a serialized value inside a JSON document
(they never start with a digit, so a serialized integer cannot absorb them). -/
def GTail (r : List Char) : Prop :=
  ∀ c cs, r = c :: cs → c.isDigit = false

/-! ## Association-list lemmas -/

theorem lookupF_append (l1 l2 : List (String × α)) (k : String) :
    lookupF (l1 ++ l2) k =
      match lookupF l1 k with
      | some v => some v
      | none => lookupF l2 k := by
  induction l1 with
  | nil => simp [lookupF]
  | cons p t ih =>
    obtain ⟨k1, v1⟩ := p
    by_cases h : k1 = k <;> simp [lookupF, h, ih]

theorem lookupF_eq_none_of_not_contains (l : List (String × α)) (k : String)
    (h : containsKey l k = false) : lookupF l k = none := by
  unfold containsKey at h
  cases hl : lookupF l k with
  | none => rfl
  | some v => rw [hl] at h; simp at h

theorem replacePD_pair (k : String) (v : α) (k1 : String) (v1 : α) :
    replacePD k v (k1, v1) = if k1 = k then (k, v) else (k1, v1) := rfl

theorem lookupF_map_replace_ne (t : List (String × α)) (k k0 : String) (v : α)
    (h : k0 ≠ k) :
    lookupF (t.map (replacePD k v)) k0 = lookupF t k0 := by
  induction t with
  | nil => rfl
  | cons p t ih =>
    obtain ⟨k1, v1⟩ := p
    rw [List.map_cons, replacePD_pair]
    by_cases h1 : k1 = k
    · rw [if_pos h1, lookupF, lookupF, ih, if_neg (fun hh => h hh.symm),
        if_neg (fun hh => h (h1 ▸ hh.symm))]
    · rw [if_neg h1, lookupF, lookupF, ih]

theorem lookupF_map_replace_self (t : List (String × α)) (k : String) (v : α)
    (h : containsKey t k = true) :
    lookupF (t.map (replacePD k v)) k = some v := by
  induction t with
  | nil => simp [containsKey, lookupF] at h
  | cons p t ih =>
    obtain ⟨k1, v1⟩ := p
    rw [List.map_cons, replacePD_pair]
    by_cases h1 : k1 = k
    · rw [if_pos h1, lookupF, if_pos rfl]
    · rw [if_neg h1]
      rw [containsKey, lookupF, if_neg h1] at h
      rw [lookupF, if_neg h1, ih h]

theorem lookupF_insertPD (l : List (String × α)) (k : String) (v : α) (k0 : String) :
    lookupF (insertPD l k v) k0 = if k0 = k then some v else lookupF l k0 := by
  by_cases hc : containsKey l k = true
  · unfold insertPD
    rw [if_pos hc]
    by_cases h0 : k0 = k
    · subst h0; rw [lookupF_map_replace_self l k0 v hc, if_pos rfl]
    · rw [lookupF_map_replace_ne l k k0 v h0, if_neg h0]
  · unfold insertPD
    rw [if_neg hc]
    rw [lookupF_append]
    have hn := lookupF_eq_none_of_not_contains l k (by simpa using hc)
    by_cases h0 : k0 = k
    · subst h0; rw [hn]; simp [lookupF]
    · cases hl : lookupF l k0 with
      | none =>
        show lookupF [(k, v)] k0 = if k0 = k then some v else none
        rw [lookupF, if_neg (fun hh => h0 hh.symm), if_neg h0]
        rfl
      | some w => simp [h0]

theorem containsKey_insertPD (l : List (String × α)) (k : String) (v : α) (k0 : String) :
    containsKey (insertPD l k v) k0 = (if k0 = k then true else containsKey l k0) := by
  unfold containsKey
  rw [lookupF_insertPD]
  split <;> simp

/-! ## Reconciler loop: branch lemmas and closed form -/

theorem isVNull_eq_false_of_isKeyed (r : Record) (h : isKeyed r = true) :
    isVNull (pyGet r "datastream_id") = false := by
  revert h
  unfold isKeyed
  cases isVNull (pyGet r "datastream_id") <;> simp

theorem isVNull_eq_true_of_not_isKeyed (r : Record) (h : isKeyed r = false) :
    isVNull (pyGet r "datastream_id") = true := by
  revert h
  unfold isKeyed
  cases isVNull (pyGet r "datastream_id") <;> simp

theorem reconStep_skip (pbi : List (String × Record)) (ps : SigMap)
    (st : ReconState) (r : Record) (h : isKeyed r = false) :
    reconStep pbi ps st r = st := by
  unfold reconStep
  rw [if_pos (isVNull_eq_true_of_not_isKeyed r h)]

theorem reconStep_unchanged (pbi : List (String × Record)) (ps : SigMap)
    (st : ReconState) (r : Record) (h : isKeyed r = true)
    (hc : unchB pbi ps r = true) :
    reconStep pbi ps st r =
      { final_records := st.final_records ++ [emit pbi ps r],
        signatures := insSig st.signatures r,
        created := st.created, updated := st.updated,
        unchanged := st.unchanged + 1 } := by
  unfold unchB keyOf at hc
  unfold reconStep emit insSig unchB keyOf
  rw [if_neg (by rw [isVNull_eq_false_of_isKeyed r h]; exact Bool.false_ne_true)]
  dsimp only
  simp [hc]

theorem reconStep_updated (pbi : List (String × Record)) (ps : SigMap)
    (st : ReconState) (r : Record) (h : isKeyed r = true)
    (hc : unchB pbi ps r = false) (hu : updB ps r = true) :
    reconStep pbi ps st r =
      { final_records := st.final_records ++ [emit pbi ps r],
        signatures := insSig st.signatures r,
        created := st.created, updated := st.updated + 1,
        unchanged := st.unchanged } := by
  unfold unchB keyOf at hc
  unfold updB keyOf at hu
  unfold reconStep emit insSig unchB keyOf
  rw [if_neg (by rw [isVNull_eq_false_of_isKeyed r h]; exact Bool.false_ne_true)]
  dsimp only
  simp [hc, hu]

theorem reconStep_created (pbi : List (String × Record)) (ps : SigMap)
    (st : ReconState) (r : Record) (h : isKeyed r = true)
    (hc : unchB pbi ps r = false) (hu : updB ps r = false) :
    reconStep pbi ps st r =
      { final_records := st.final_records ++ [emit pbi ps r],
        signatures := insSig st.signatures r,
        created := st.created + 1, updated := st.updated,
        unchanged := st.unchanged } := by
  unfold unchB keyOf at hc
  unfold updB keyOf at hu
  unfold reconStep emit insSig unchB keyOf
  rw [if_neg (by rw [isVNull_eq_false_of_isKeyed r h]; exact Bool.false_ne_true)]
  dsimp only
  simp [hc, hu]

theorem foldl_reconStep_spec (pbi : List (String × Record)) (ps : SigMap) :
    ∀ (cur : List Record) (st : ReconState),
      List.foldl (reconStep pbi ps) st cur =
        { final_records := st.final_records ++ (cur.filter isKeyed).map (emit pbi ps),
          signatures := List.foldl insSig st.signatures (cur.filter isKeyed),
          created := st.created +
            (cur.filter isKeyed).countP (fun r => !unchB pbi ps r && !updB ps r),
          updated := st.updated +
            (cur.filter isKeyed).countP (fun r => !unchB pbi ps r && updB ps r),
          unchanged := st.unchanged +
            (cur.filter isKeyed).countP (fun r => unchB pbi ps r) } := by
  intro cur
  induction cur with
  | nil => intro st; simp
  | cons r rest ih =>
    intro st
    rw [List.foldl_cons]
    cases hk : isKeyed r with
    | false =>
      rw [reconStep_skip pbi ps st r hk, ih st]
      simp [List.filter_cons, hk]
    | true =>
      cases hc : unchB pbi ps r with
      | true =>
        rw [reconStep_unchanged pbi ps st r hk hc, ih]
        simp [List.filter_cons, hk, hc, List.countP_cons, List.append_assoc,
          ReconState.mk.injEq]
        all_goals omega
      | false =>
        cases hu : updB ps r with
        | true =>
          rw [reconStep_updated pbi ps st r hk hc hu, ih]
          simp [List.filter_cons, hk, hc, hu, List.countP_cons, List.append_assoc,
            ReconState.mk.injEq]
          all_goals omega
        | false =>
          rw [reconStep_created pbi ps st r hk hc hu, ih]
          simp [List.filter_cons, hk, hc, hu, List.countP_cons, List.append_assoc,
            ReconState.mk.injEq]
          all_goals omega

theorem apply_incremental_harvest_spec (cur prev : List Record) (ps : SigMap) :
    apply_incremental_harvest cur prev ps =
      { final_records := (cur.filter isKeyed).map (emit (previous_by_id prev) ps),
        signatures := List.foldl insSig [] (cur.filter isKeyed),
        stats :=
          { created := (cur.filter isKeyed).countP
              (fun r => !unchB (previous_by_id prev) ps r && !updB ps r),
            updated := (cur.filter isKeyed).countP
              (fun r => !unchB (previous_by_id prev) ps r && updB ps r),
            unchanged := (cur.filter isKeyed).countP
              (fun r => unchB (previous_by_id prev) ps r),
            total := ((cur.filter isKeyed).map (emit (previous_by_id prev) ps)).length } } := by
  unfold apply_incremental_harvest
  dsimp only
  rw [foldl_reconStep_spec]
  simp

/-! ## Index and signature-map lemmas -/

theorem sigMatches_iff (o : Option Value) (s : String) :
    sigMatches o s = true ↔ o = some (.vStr s) := by
  cases o with
  | none => simp [sigMatches]
  | some v => cases v <;> simp [sigMatches]

theorem unchB_iff (pbi : List (String × Record)) (ps : SigMap) (r : Record) :
    unchB pbi ps r = true ↔
      lookupF ps (keyOf r) = some (.vStr (record_signature r))
        ∧ containsKey pbi (keyOf r) = true := by
  unfold unchB
  rw [Bool.and_eq_true, sigMatches_iff]

theorem unchB_eq_false_iff (pbi : List (String × Record)) (ps : SigMap) (r : Record) :
    unchB pbi ps r = false ↔
      ¬(lookupF ps (keyOf r) = some (.vStr (record_signature r))
          ∧ containsKey pbi (keyOf r) = true) := by
  rw [← unchB_iff pbi ps r]
  cases unchB pbi ps r <;> simp

theorem idxStep_not_keyed (m : List (String × Record)) (r : Record)
    (h : isKeyed r = false) : idxStep m r = m := by
  unfold idxStep
  rw [if_pos (isVNull_eq_true_of_not_isKeyed r h)]

theorem idxStep_keyed (m : List (String × Record)) (r : Record)
    (h : isKeyed r = true) : idxStep m r = insertPD m (keyOf r) r := by
  unfold idxStep keyOf
  rw [if_neg (by rw [isVNull_eq_false_of_isKeyed r h]; exact Bool.false_ne_true)]

theorem lookupF_foldl_idxStep (l : List Record) :
    ∀ (m : List (String × Record)) (k : String) (p : Record),
      lookupF (List.foldl idxStep m l) k = some p →
        lookupF m k = some p ∨ (p ∈ l ∧ isKeyed p = true ∧ keyOf p = k) := by
  induction l with
  | nil => intro m k p h; exact Or.inl h
  | cons r t ih =>
    intro m k p h
    rw [List.foldl_cons] at h
    rcases ih (idxStep m r) k p h with h1 | h1
    · cases hk : isKeyed r with
      | false => rw [idxStep_not_keyed m r hk] at h1; exact Or.inl h1
      | true =>
        rw [idxStep_keyed m r hk, lookupF_insertPD] at h1
        by_cases he : k = keyOf r
        · rw [if_pos he] at h1
          obtain rfl : r = p := by injection h1
          exact Or.inr ⟨List.mem_cons_self r t, hk, he.symm⟩
        · rw [if_neg he] at h1
          exact Or.inl h1
    · exact Or.inr ⟨List.mem_cons_of_mem r h1.1, h1.2⟩

theorem lookupF_previous_by_id (prev : List Record) (k : String) (p : Record)
    (h : lookupF (previous_by_id prev) k = some p) :
    p ∈ prev ∧ isKeyed p = true ∧ keyOf p = k := by
  rcases lookupF_foldl_idxStep prev [] k p h with h1 | h1
  · exact absurd h1 (by simp [lookupF])
  · exact h1

theorem foldl_idxStep_preserves (l : List Record) :
    ∀ (m : List (String × Record)) (k : String),
      (lookupF m k).isSome = true →
      (lookupF (List.foldl idxStep m l) k).isSome = true := by
  induction l with
  | nil => intro m k h; exact h
  | cons r t ih =>
    intro m k h
    rw [List.foldl_cons]
    refine ih (idxStep m r) k ?_
    cases hk : isKeyed r with
    | false => rw [idxStep_not_keyed m r hk]; exact h
    | true =>
      rw [idxStep_keyed m r hk, lookupF_insertPD]
      by_cases he : k = keyOf r
      · rw [if_pos he]; rfl
      · rw [if_neg he]; exact h

theorem containsKey_foldl_idxStep_of_mem (l : List Record) :
    ∀ (m : List (String × Record)) (r : Record), r ∈ l → isKeyed r = true →
      containsKey (List.foldl idxStep m l) (keyOf r) = true := by
  induction l with
  | nil => intro m r hr; exact absurd hr (List.not_mem_nil r)
  | cons a t ih =>
    intro m r hr hk
    rw [List.foldl_cons]
    rcases List.mem_cons.mp hr with rfl | hr
    · refine foldl_idxStep_preserves t (idxStep m r) (keyOf r) ?_
      rw [idxStep_keyed m r hk, lookupF_insertPD, if_pos rfl]
      rfl
    · exact ih (idxStep m a) r hr hk

theorem containsKey_previous_by_id_of_mem (prev : List Record) (r : Record)
    (hr : r ∈ prev) (hk : isKeyed r = true) :
    containsKey (previous_by_id prev) (keyOf r) = true :=
  containsKey_foldl_idxStep_of_mem prev [] r hr hk

theorem lookupF_foldl_insSig_not_mem (l : List Record) :
    ∀ (m : SigMap) (k : String), k ∉ l.map keyOf →
      lookupF (List.foldl insSig m l) k = lookupF m k := by
  induction l with
  | nil => intro m k _; rfl
  | cons r t ih =>
    intro m k hk
    rw [List.map_cons] at hk
    rw [List.foldl_cons, ih (insSig m r) k (fun hh => hk (List.mem_cons_of_mem _ hh))]
    unfold insSig
    rw [lookupF_insertPD, if_neg (fun hh => hk (by rw [hh]; exact List.mem_cons_self _ _))]

theorem lookupF_foldl_insSig_self (l : List Record) :
    ∀ (m : SigMap) (r : Record), (l.map keyOf).Nodup → r ∈ l →
      lookupF (List.foldl insSig m l) (keyOf r) = some (.vStr (record_signature r)) := by
  induction l with
  | nil => intro m r _ hr; exact absurd hr (List.not_mem_nil r)
  | cons a t ih =>
    intro m r hnd hr
    rw [List.map_cons, List.nodup_cons] at hnd
    rw [List.foldl_cons]
    rcases List.mem_cons.mp hr with rfl | hr
    · rw [lookupF_foldl_insSig_not_mem t (insSig m r) (keyOf r) hnd.1]
      unfold insSig
      rw [lookupF_insertPD, if_pos rfl]
    · exact ih (insSig m a) r hnd.2 hr

theorem lookupF_foldl_insSig_last (l : List Record) (m : SigMap) (r : Record) :
    lookupF (List.foldl insSig m (l ++ [r])) (keyOf r)
      = some (.vStr (record_signature r)) := by
  rw [List.foldl_append, List.foldl_cons, List.foldl_nil]
  unfold insSig
  rw [lookupF_insertPD, if_pos rfl]

theorem emit_keyed_and_keyOf (prev : List Record) (ps : SigMap) (r : Record)
    (h : isKeyed r = true) :
    isKeyed (emit (previous_by_id prev) ps r) = true
      ∧ keyOf (emit (previous_by_id prev) ps r) = keyOf r := by
  unfold emit
  by_cases hc : unchB (previous_by_id prev) ps r = true
  · rw [if_pos hc]
    cases hl : lookupF (previous_by_id prev) (keyOf r) with
    | none => exact ⟨h, rfl⟩
    | some p =>
      have hp := lookupF_previous_by_id prev (keyOf r) p hl
      exact ⟨hp.2.1, hp.2.2⟩
  · rw [if_neg hc]
    exact ⟨h, rfl⟩

theorem countP_three_partition (l : List α) (p q : α → Bool) :
    l.countP (fun a => p a) + l.countP (fun a => !p a && q a)
      + l.countP (fun a => !p a && !q a) = l.length := by
  induction l with
  | nil => simp
  | cons a t ih =>
    simp only [List.countP_cons, List.length_cons]
    cases hp : p a <;> cases hq : q a <;> simp <;> omega

/-! ## Claims about the Reconciler -/

theorem filter_append_keyed (cur : List Record) (r : Record) (h : isKeyed r = true) :
    (cur ++ [r]).filter isKeyed = cur.filter isKeyed ++ [r] := by
  simp [List.filter_append, List.filter_cons, h]

/-- Claim C1: a current record with identity key `k` is classified unchanged
iff a previous signature exists for `k`, equals the current record's
signature, and the `previous_by_id` index contains `k`; in that case the
emitted record is the previous record stored at `k` — an element of
`previous_records`, not the freshly fetched record. -/
theorem claim1_unchanged_iff_and_identity (cur prev : List Record) (ps : SigMap)
    (r : Record) (h : isKeyed r = true) :
    ((apply_incremental_harvest (cur ++ [r]) prev ps).stats.unchanged
        = (apply_incremental_harvest cur prev ps).stats.unchanged + 1
      ↔ lookupF ps (keyOf r) = some (.vStr (record_signature r))
          ∧ containsKey (previous_by_id prev) (keyOf r) = true)
    ∧ (lookupF ps (keyOf r) = some (.vStr (record_signature r))
        → containsKey (previous_by_id prev) (keyOf r) = true
        → ∃ p, p ∈ prev ∧ lookupF (previous_by_id prev) (keyOf r) = some p
            ∧ (apply_incremental_harvest (cur ++ [r]) prev ps).final_records
                = (apply_incremental_harvest cur prev ps).final_records ++ [p]) := by
  have hfa := filter_append_keyed cur r h
  constructor
  · rw [apply_incremental_harvest_spec, apply_incremental_harvest_spec]
    dsimp only
    rw [hfa, List.countP_append]
    by_cases hc : unchB (previous_by_id prev) ps r = true
    · have hpq := (unchB_iff _ _ _).mp hc
      simp [hc, hpq.1, hpq.2]
    · have hb : unchB (previous_by_id prev) ps r = false := by
        cases hx : unchB (previous_by_id prev) ps r
        · rfl
        · exact absurd hx hc
      have hnot := (unchB_eq_false_iff _ _ _).mp hb
      have hone : List.countP (fun r => unchB (previous_by_id prev) ps r) [r] = 0 := by
        simp [List.countP_cons, hb]
      rw [hone]
      constructor
      · intro habs; exfalso; omega
      · intro hp; exact absurd hp hnot
  · intro h1 h2
    have hc : unchB (previous_by_id prev) ps r = true := (unchB_iff _ _ _).mpr ⟨h1, h2⟩
    obtain ⟨p, hp⟩ : ∃ p, lookupF (previous_by_id prev) (keyOf r) = some p := by
      unfold containsKey at h2
      cases hx : lookupF (previous_by_id prev) (keyOf r) with
      | none => rw [hx] at h2; simp at h2
      | some p => exact ⟨p, rfl⟩
    have hmem := lookupF_previous_by_id prev (keyOf r) p hp
    refine ⟨p, hmem.1, hp, ?_⟩
    rw [apply_incremental_harvest_spec, apply_incremental_harvest_spec]
    dsimp only
    rw [hfa, List.map_append]
    simp [emit, hc, hp]

/-- Witness for C1 at a concrete input: with the previous run having stored
the record and its signature, re-harvesting the same record increments the
unchanged counter. -/
theorem claim1_witness :
    (apply_incremental_harvest ([] ++ [[("datastream_id", Value.vInt 1)]])
        [[("datastream_id", Value.vInt 1)]]
        [("1", Value.vStr (record_signature [("datastream_id", Value.vInt 1)]))]).stats.unchanged
      = (apply_incremental_harvest []
          [[("datastream_id", Value.vInt 1)]]
          [("1", Value.vStr (record_signature [("datastream_id", Value.vInt 1)]))]).stats.unchanged
        + 1 :=
  (claim1_unchanged_iff_and_identity []
    [[("datastream_id", Value.vInt 1)]]
    [("1", Value.vStr (record_signature [("datastream_id", Value.vInt 1)]))]
    [("datastream_id", Value.vInt 1)] rfl).1.mpr ⟨rfl, rfl⟩

/-- Claim C3: a keyed current record that is not classified unchanged is
emitted itself and counted updated when its key is in `previous_signatures`,
created otherwise; with empty previous state every keyed record is counted
created. -/
theorem claim3_changed_emits_current (cur prev : List Record) (ps : SigMap)
    (r : Record) (h : isKeyed r = true)
    (hnc : ¬(lookupF ps (keyOf r) = some (.vStr (record_signature r))
        ∧ containsKey (previous_by_id prev) (keyOf r) = true)) :
    (apply_incremental_harvest (cur ++ [r]) prev ps).final_records
        = (apply_incremental_harvest cur prev ps).final_records ++ [r]
    ∧ (containsKey ps (keyOf r) = true →
        (apply_incremental_harvest (cur ++ [r]) prev ps).stats.updated
            = (apply_incremental_harvest cur prev ps).stats.updated + 1
          ∧ (apply_incremental_harvest (cur ++ [r]) prev ps).stats.created
            = (apply_incremental_harvest cur prev ps).stats.created)
    ∧ (containsKey ps (keyOf r) = false →
        (apply_incremental_harvest (cur ++ [r]) prev ps).stats.created
            = (apply_incremental_harvest cur prev ps).stats.created + 1
          ∧ (apply_incremental_harvest (cur ++ [r]) prev ps).stats.updated
            = (apply_incremental_harvest cur prev ps).stats.updated)
    ∧ (apply_incremental_harvest cur [] []).stats.created
        = (cur.filter isKeyed).length
    ∧ (apply_incremental_harvest cur [] []).stats.unchanged = 0
    ∧ (apply_incremental_harvest cur [] []).stats.updated = 0 := by
  have hfa := filter_append_keyed cur r h
  have hb : unchB (previous_by_id prev) ps r = false := by
    cases hx : unchB (previous_by_id prev) ps r
    · rfl
    · exact absurd ((unchB_iff _ _ _).mp hx) hnc
  refine ⟨?_, ?_, ?_, ?_, ?_, ?_⟩
  · rw [apply_incremental_harvest_spec, apply_incremental_harvest_spec]
    dsimp only
    rw [hfa, List.map_append]
    simp [emit, hb]
  · intro hu
    rw [apply_incremental_harvest_spec, apply_incremental_harvest_spec]
    dsimp only
    rw [hfa, List.countP_append, List.countP_append]
    constructor
    · simp [List.countP_cons, hb, updB, hu]
    · simp [List.countP_cons, hb, updB, hu]
  · intro hu
    rw [apply_incremental_harvest_spec, apply_incremental_harvest_spec]
    dsimp only
    rw [hfa, List.countP_append, List.countP_append]
    constructor
    · simp [List.countP_cons, hb, updB, hu]
    · simp [List.countP_cons, hb, updB, hu]
  · rw [apply_incremental_harvest_spec]
    dsimp only
    exact List.countP_eq_length.mpr (fun a _ => rfl)
  · rw [apply_incremental_harvest_spec]
    dsimp only
    exact List.countP_eq_zero.mpr (fun a _ => by intro hx; exact Bool.false_ne_true hx)
  · rw [apply_incremental_harvest_spec]
    dsimp only
    exact List.countP_eq_zero.mpr (fun a _ => by intro hx; exact Bool.false_ne_true hx)

/-- Witness for C3 at a concrete input: a fresh key is emitted as the
current record and counted created. -/
theorem claim3_witness :
    (apply_incremental_harvest ([] ++ [[("datastream_id", Value.vInt 5)]]) [] []).final_records
        = (apply_incremental_harvest [] [] []).final_records
            ++ [[("datastream_id", Value.vInt 5)]]
    ∧ (apply_incremental_harvest ([] ++ [[("datastream_id", Value.vInt 5)]]) [] []).stats.created
        = (apply_incremental_harvest [] [] []).stats.created + 1 := by
  have h := claim3_changed_emits_current [] [] [] [("datastream_id", Value.vInt 5)]
    rfl (fun hx => Option.noConfusion hx.1)
  exact ⟨h.1, (h.2.2.1 rfl).1⟩

/-- Claim C4: with pairwise-distinct identity keys,
`created + updated + unchanged = total` and `total = len(final_records)`. -/
theorem claim4_stats_partition (cur prev : List Record) (ps : SigMap)
    (_hnd : ((cur.filter isKeyed).map keyOf).Nodup) :
    (apply_incremental_harvest cur prev ps).stats.created
      + (apply_incremental_harvest cur prev ps).stats.updated
      + (apply_incremental_harvest cur prev ps).stats.unchanged
      = (apply_incremental_harvest cur prev ps).stats.total
    ∧ (apply_incremental_harvest cur prev ps).stats.total
      = (apply_incremental_harvest cur prev ps).final_records.length := by
  rw [apply_incremental_harvest_spec]
  dsimp only
  constructor
  · have hp := countP_three_partition (cur.filter isKeyed)
      (fun r => unchB (previous_by_id prev) ps r) (fun r => updB ps r)
    rw [List.length_map]
    omega
  · rfl

/-- Witness for C4 at a concrete input. -/
theorem claim4_witness :
    (apply_incremental_harvest [[("datastream_id", Value.vInt 1)]] [] []).stats.created
      + (apply_incremental_harvest [[("datastream_id", Value.vInt 1)]] [] []).stats.updated
      + (apply_incremental_harvest [[("datastream_id", Value.vInt 1)]] [] []).stats.unchanged
      = (apply_incremental_harvest [[("datastream_id", Value.vInt 1)]] [] []).stats.total
    ∧ (apply_incremental_harvest [[("datastream_id", Value.vInt 1)]] [] []).stats.total
      = (apply_incremental_harvest [[("datastream_id", Value.vInt 1)]] [] []).final_records.length :=
  claim4_stats_partition [[("datastream_id", Value.vInt 1)]] [] [] (by decide)

/-- Claim C5: a record without `datastream_id` contributes nothing — the
whole reconciler output is unchanged by its presence. -/
theorem claim5_key_drop (pre post prev : List Record) (ps : SigMap) (x : Record)
    (h : isKeyed x = false) :
    apply_incremental_harvest (pre ++ x :: post) prev ps
      = apply_incremental_harvest (pre ++ post) prev ps := by
  unfold apply_incremental_harvest
  dsimp only
  rw [List.foldl_append, List.foldl_cons, reconStep_skip _ _ _ x h, ← List.foldl_append]

/-- Witness for C5 at a concrete input. -/
theorem claim5_witness :
    apply_incremental_harvest ([] ++ [("name", Value.vStr "no-id")] :: []) [] []
      = apply_incremental_harvest ([] ++ []) [] [] :=
  claim5_key_drop [] [] [] [] [("name", Value.vStr "no-id")] rfl

/-- Claim C6: `final_records` follows the order of `current_records`
restricted to keyed records — the i-th emitted record is the emission for
the i-th keyed current record and carries its identity key. -/
theorem claim6_order (cur prev : List Record) (ps : SigMap) :
    (apply_incremental_harvest cur prev ps).final_records
        = (cur.filter isKeyed).map (emit (previous_by_id prev) ps)
    ∧ (apply_incremental_harvest cur prev ps).final_records.map keyOf
        = (cur.filter isKeyed).map keyOf := by
  have h1 : (apply_incremental_harvest cur prev ps).final_records
      = (cur.filter isKeyed).map (emit (previous_by_id prev) ps) := by
    rw [apply_incremental_harvest_spec]
  refine ⟨h1, ?_⟩
  rw [h1, List.map_map]
  refine List.map_congr_left (fun r hr => ?_)
  have hk : isKeyed r = true := (List.mem_filter.mp hr).2
  exact (emit_keyed_and_keyOf prev ps r hk).2

/-- Claim C2 as stated is false on the code: `current_records` may contain
duplicate identity keys (the claim only requires every record to carry a
`datastream_id`).  With two records sharing key `"1"` but different content,
the first run stores only the second record's signature, so the second run
classifies the first record as updated: `stats.updated = 1`, not `0`. -/
theorem claim2_counterexample :
    isKeyed [("datastream_id", Value.vInt 1), ("v", Value.vStr "a")] = true
    ∧ isKeyed [("datastream_id", Value.vInt 1), ("v", Value.vStr "b")] = true
    ∧ (apply_incremental_harvest
        [[("datastream_id", Value.vInt 1), ("v", Value.vStr "a")],
         [("datastream_id", Value.vInt 1), ("v", Value.vStr "b")]]
        (apply_incremental_harvest
          [[("datastream_id", Value.vInt 1), ("v", Value.vStr "a")],
           [("datastream_id", Value.vInt 1), ("v", Value.vStr "b")]] [] []).final_records
        (apply_incremental_harvest
          [[("datastream_id", Value.vInt 1), ("v", Value.vStr "a")],
           [("datastream_id", Value.vInt 1), ("v", Value.vStr "b")]] [] []).signatures
        ).stats.updated = 1 :=
  ⟨rfl, rfl, rfl⟩

/-- Claim C2 amended: running the reconciler a second time on the same
`current_records`, with the first run's `final_records` and `signatures` as
previous state, yields `updated = 0`, `created = 0` and
`unchanged = len(current_records)` — provided every record has a
`datastream_id` AND the identity keys are pairwise distinct (the
counterexample shows distinctness is necessary). -/
theorem claim2_amended_idempotence (cur prev : List Record) (ps : SigMap)
    (hk : ∀ r ∈ cur, isKeyed r = true)
    (hnd : (cur.map keyOf).Nodup) :
    (apply_incremental_harvest cur
        (apply_incremental_harvest cur prev ps).final_records
        (apply_incremental_harvest cur prev ps).signatures).stats.updated = 0
    ∧ (apply_incremental_harvest cur
        (apply_incremental_harvest cur prev ps).final_records
        (apply_incremental_harvest cur prev ps).signatures).stats.created = 0
    ∧ (apply_incremental_harvest cur
        (apply_incremental_harvest cur prev ps).final_records
        (apply_incremental_harvest cur prev ps).signatures).stats.unchanged
      = cur.length := by
  have hfilter : cur.filter isKeyed = cur := List.filter_eq_self.mpr hk
  have hsig1 : (apply_incremental_harvest cur prev ps).signatures
      = List.foldl insSig [] cur := by
    rw [apply_incremental_harvest_spec, hfilter]
  have hfin1 : (apply_incremental_harvest cur prev ps).final_records
      = cur.map (emit (previous_by_id prev) ps) := by
    rw [apply_incremental_harvest_spec, hfilter]
  have hu2 : ∀ r ∈ cur,
      unchB (previous_by_id (apply_incremental_harvest cur prev ps).final_records)
        (apply_incremental_harvest cur prev ps).signatures r = true := by
    intro r hr
    refine (unchB_iff _ _ _).mpr ⟨?_, ?_⟩
    · rw [hsig1]
      exact lookupF_foldl_insSig_self cur [] r hnd hr
    · have hek := emit_keyed_and_keyOf prev ps r (hk r hr)
      have hmem : emit (previous_by_id prev) ps r
          ∈ (apply_incremental_harvest cur prev ps).final_records := by
        rw [hfin1]
        exact List.mem_map_of_mem _ hr
      have := containsKey_previous_by_id_of_mem
        (apply_incremental_harvest cur prev ps).final_records
        (emit (previous_by_id prev) ps r) hmem hek.1
      rwa [hek.2] at this
  refine ⟨?_, ?_, ?_⟩
  · rw [apply_incremental_harvest_spec]
    dsimp only
    rw [hfilter]
    refine List.countP_eq_zero.mpr (fun r hr hx => ?_)
    rw [hu2 r hr] at hx
    simp at hx
  · rw [apply_incremental_harvest_spec]
    dsimp only
    rw [hfilter]
    refine List.countP_eq_zero.mpr (fun r hr hx => ?_)
    rw [hu2 r hr] at hx
    simp at hx
  · rw [apply_incremental_harvest_spec]
    dsimp only
    rw [hfilter]
    exact List.countP_eq_length.mpr (fun r hr => hu2 r hr)

/-- Witness for the amended C2 at a concrete input: one keyed record,
starting from empty previous state. -/
theorem claim2_witness :
    (apply_incremental_harvest [[("datastream_id", Value.vInt 1)]]
        (apply_incremental_harvest [[("datastream_id", Value.vInt 1)]] [] []).final_records
        (apply_incremental_harvest [[("datastream_id", Value.vInt 1)]] [] []).signatures
        ).stats.updated = 0
    ∧ (apply_incremental_harvest [[("datastream_id", Value.vInt 1)]]
        (apply_incremental_harvest [[("datastream_id", Value.vInt 1)]] [] []).final_records
        (apply_incremental_harvest [[("datastream_id", Value.vInt 1)]] [] []).signatures
        ).stats.created = 0
    ∧ (apply_incremental_harvest [[("datastream_id", Value.vInt 1)]]
        (apply_incremental_harvest [[("datastream_id", Value.vInt 1)]] [] []).final_records
        (apply_incremental_harvest [[("datastream_id", Value.vInt 1)]] [] []).signatures
        ).stats.unchanged = [[("datastream_id", Value.vInt 1)]].length :=
  claim2_amended_idempotence [[("datastream_id", Value.vInt 1)]] [] []
    (by intro r hr; rw [List.mem_singleton.mp hr]; rfl) (by decide)

/-! ## Claim C10: the None-only drop test, reconciler and projectors -/

theorem foldl_projector_spec (g : Record → Value) (l : List Record) :
    ∀ (init : List Value),
      List.foldl (fun acc record =>
        if isVNull (pyGet record "datastream_id") then acc else acc ++ [g record]) init l
      = init ++ (l.filter isKeyed).map g := by
  induction l with
  | nil => intro init; simp
  | cons r t ih =>
    intro init
    rw [List.foldl_cons]
    cases hk : isKeyed r with
    | false =>
      rw [if_pos (isVNull_eq_true_of_not_isKeyed r hk), ih]
      simp [List.filter_cons, hk]
    | true =>
      rw [if_neg (by rw [isVNull_eq_false_of_isKeyed r hk]; exact Bool.false_ne_true), ih]
      simp [List.filter_cons, hk, List.append_assoc]

/-- Claim C10: only a literally-absent (`None`) `datastream_id` drops a
record.  A present-but-falsy id (`0`, `""`) is retained: the record is
emitted into `final_records`, its signature is recorded under the string
form of the id, and exactly one stats counter increments.  The STAC and
DCAT projectors exclude records by the same `is None` test. -/
theorem claim10_none_only_drop (cur prev : List Record) (ps : SigMap) (r : Record)
    (records : List Record) (cid root : String) (h : isKeyed r = true) :
    (apply_incremental_harvest (cur ++ [r]) prev ps).final_records.length
        = (apply_incremental_harvest cur prev ps).final_records.length + 1
    ∧ lookupF (apply_incremental_harvest (cur ++ [r]) prev ps).signatures (keyOf r)
        = some (.vStr (record_signature r))
    ∧ (apply_incremental_harvest (cur ++ [r]) prev ps).stats.created
        + (apply_incremental_harvest (cur ++ [r]) prev ps).stats.updated
        + (apply_incremental_harvest (cur ++ [r]) prev ps).stats.unchanged
      = (apply_incremental_harvest cur prev ps).stats.created
        + (apply_incremental_harvest cur prev ps).stats.updated
        + (apply_incremental_harvest cur prev ps).stats.unchanged + 1
    ∧ vGet (build_stac_item_collection records cid root) "features"
        = .vArr ((records.filter isKeyed).map (stac_feature cid (rstripSlash root)))
    ∧ vGet (build_dcat_catalog records) "dcat:dataset"
        = .vArr ((records.filter isKeyed).map dcat_dataset) := by
  have hfa := filter_append_keyed cur r h
  refine ⟨?_, ?_, ?_, ?_, ?_⟩
  · rw [apply_incremental_harvest_spec, apply_incremental_harvest_spec]
    dsimp only
    rw [hfa, List.map_append, List.length_append]
    rfl
  · rw [apply_incremental_harvest_spec]
    dsimp only
    rw [hfa]
    exact lookupF_foldl_insSig_last (cur.filter isKeyed) [] r
  · rw [apply_incremental_harvest_spec, apply_incremental_harvest_spec]
    dsimp only
    rw [hfa, List.countP_append, List.countP_append, List.countP_append]
    have hone := countP_three_partition [r]
      (fun x => unchB (previous_by_id prev) ps x) (fun x => updB ps x)
    simp only [List.length_singleton] at hone
    omega
  · unfold build_stac_item_collection
    dsimp only
    rw [foldl_projector_spec]
    rfl
  · unfold build_dcat_catalog
    dsimp only
    rw [foldl_projector_spec]
    rfl

/-- Witness for C10 at a concrete input: the falsy integer id `0` is
retained and keyed by `"0"`. -/
theorem claim10_witness :
    (apply_incremental_harvest ([] ++ [[("datastream_id", Value.vInt 0)]]) [] []).final_records.length
        = (apply_incremental_harvest [] [] []).final_records.length + 1
    ∧ lookupF (apply_incremental_harvest ([] ++ [[("datastream_id", Value.vInt 0)]]) [] []).signatures
        (keyOf [("datastream_id", Value.vInt 0)])
        = some (.vStr (record_signature [("datastream_id", Value.vInt 0)]))
    ∧ (apply_incremental_harvest ([] ++ [[("datastream_id", Value.vInt 0)]]) [] []).stats.created
        + (apply_incremental_harvest ([] ++ [[("datastream_id", Value.vInt 0)]]) [] []).stats.updated
        + (apply_incremental_harvest ([] ++ [[("datastream_id", Value.vInt 0)]]) [] []).stats.unchanged
      = (apply_incremental_harvest [] [] []).stats.created
        + (apply_incremental_harvest [] [] []).stats.updated
        + (apply_incremental_harvest [] [] []).stats.unchanged + 1
    ∧ vGet (build_stac_item_collection [[("datastream_id", Value.vInt 0)]] "c" "http://x/") "features"
        = .vArr (([[("datastream_id", Value.vInt 0)]].filter isKeyed).map
            (stac_feature "c" (rstripSlash "http://x/")))
    ∧ vGet (build_dcat_catalog [[("datastream_id", Value.vInt 0)]]) "dcat:dataset"
        = .vArr (([[("datastream_id", Value.vInt 0)]].filter isKeyed).map dcat_dataset) :=
  claim10_none_only_drop [] [] [] [("datastream_id", Value.vInt 0)]
    [[("datastream_id", Value.vInt 0)]] "c" "http://x/" rfl

/-! ## Claim C8: the Normalizer location rule -/

theorem extract_location_eq (thing : Record) :
    extract_location thing =
      match pyGet thing "Locations" with
      | .vArr (.vObj fo :: _) =>
          (match pyGet fo "location" with
           | .vObj lo =>
               (match pyGet lo "coordinates" with
                | .vArr (c0 :: c1 :: _) =>
                    (match numVal c0, numVal c1 with
                     | some lon, some lat =>
                         .ok (some (.vObj [("lat", .vInt lat), ("lon", .vInt lon)]))
                     | _, _ => .ok none)
                | _ => .ok none)
           | _ => .ok none)
      | .vArr (_ :: _) => .error ()
      | .vArr [] => .ok none
      | .vNull => .ok none
      | .vBool b => if b then .error () else .ok none
      | .vInt i => if i = 0 then .ok none else .error ()
      | .vStr s => if s = "" then .ok none else .error ()
      | .vObj fs => if fs.isEmpty then .ok none else .error () := by
  unfold extract_location
  cases hLoc : pyGet thing "Locations" with
  | vNull => rfl
  | vBool b => cases b <;> rfl
  | vInt i =>
    by_cases h : i = 0
    · simp [pyOr, isFalsy, h]
    · simp [pyOr, isFalsy, h]
  | vStr s =>
    by_cases h : s = ""
    · simp [pyOr, isFalsy, h]
    · simp [pyOr, isFalsy, h]
  | vObj fs => cases fs <;> rfl
  | vArr xs =>
    cases xs with
    | nil => rfl
    | cons first rest => cases first <;> rfl

/-- Claim C8 as stated is false on the code: `_extract_location` never
inspects the geometry's `type` and accepts any coordinate list of length at
least 2.  A first location entry whose geometry has no `"type"` key and a
3-element coordinate list still yields a location. -/
theorem claim8_counterexample :
    extract_location
        [("Locations", .vArr [.vObj [("location",
          .vObj [("coordinates", .vArr [.vInt 7, .vInt 46, .vInt 100])])]])]
      = .ok (some (.vObj [("lat", .vInt 46), ("lon", .vInt 7)]))
    ∧ pyGet [("coordinates", Value.vArr [Value.vInt 7, Value.vInt 46, Value.vInt 100])] "type"
        = Value.vNull
    ∧ [Value.vInt 7, Value.vInt 46, Value.vInt 100].length = 3 :=
  ⟨rfl, rfl, rfl⟩

/-- Claim C8 amended: the location is taken from the thing's first
`Locations` entry only; it is present exactly when that entry is a dict
whose `"location"` value is a dict whose `"coordinates"` value is a list
with at least two entries whose first two are numeric (the geometry `type`
is not inspected, surplus coordinate entries are ignored), and then equals
`{lat: coordinates[1], lon: coordinates[0]}`; a falsy `Locations` value or
a non-matching dict-shaped first entry yields an absent location, not an
error. -/
theorem claim8_amended (thing : Record) :
    (∀ v, extract_location thing = .ok (some v) ↔
        ∃ fo rest lo c0 c1 cs lon lat,
          pyGet thing "Locations" = .vArr (.vObj fo :: rest)
          ∧ pyGet fo "location" = .vObj lo
          ∧ pyGet lo "coordinates" = .vArr (c0 :: c1 :: cs)
          ∧ numVal c0 = some lon ∧ numVal c1 = some lat
          ∧ v = .vObj [("lat", .vInt lat), ("lon", .vInt lon)])
    ∧ (∀ t2 e r1 r2, pyGet thing "Locations" = .vArr (e :: r1)
        → pyGet t2 "Locations" = .vArr (e :: r2)
        → extract_location thing = extract_location t2)
    ∧ ((isFalsy (pyGet thing "Locations") = true
          ∨ ∃ fo rest, pyGet thing "Locations" = .vArr (.vObj fo :: rest))
        → ∃ res, extract_location thing = .ok res) := by
  refine ⟨?_, ?_, ?_⟩
  · intro v
    constructor
    · intro hv
      rw [extract_location_eq] at hv
      cases hLoc : pyGet thing "Locations" with
      | vNull => rw [hLoc] at hv; simp at hv
      | vBool b => rw [hLoc] at hv; cases b <;> simp at hv
      | vInt i =>
        rw [hLoc] at hv
        by_cases h : i = 0 <;> simp [h] at hv
      | vStr s =>
        rw [hLoc] at hv
        by_cases h : s = "" <;> simp [h] at hv
      | vObj fs => rw [hLoc] at hv; cases fs <;> simp at hv
      | vArr xs =>
        rw [hLoc] at hv
        cases xs with
        | nil => simp at hv
        | cons first rest =>
          cases first with
          | vObj fo =>
            dsimp only at hv
            cases hLo : pyGet fo "location" <;> rw [hLo] at hv
            case vObj lo =>
              dsimp only at hv
              cases hco : pyGet lo "coordinates" <;> rw [hco] at hv
              case vArr cs =>
                cases cs with
                | nil => simp at hv
                | cons c0 cs2 =>
                  cases cs2 with
                  | nil => simp at hv
                  | cons c1 cs3 =>
                    dsimp only at hv
                    cases hn0 : numVal c0 <;> rw [hn0] at hv
                    case none => simp at hv
                    case some lon =>
                      cases hn1 : numVal c1 <;> rw [hn1] at hv
                      case none => simp at hv
                      case some lat =>
                        dsimp only at hv
                        simp only [Except.ok.injEq, Option.some.injEq] at hv
                        exact ⟨fo, rest, lo, c0, c1, cs3, lon, lat,
                          rfl, hLo, hco, hn0, hn1, hv.symm⟩
              all_goals simp at hv
            all_goals simp at hv
          | vNull => simp at hv
          | vBool b => simp at hv
          | vInt i => simp at hv
          | vStr s => simp at hv
          | vArr ys => simp at hv
    · rintro ⟨fo, rest, lo, c0, c1, cs, lon, lat, h1, h2, h3, h4, h5, rfl⟩
      rw [extract_location_eq]
      simp [h1, h2, h3, h4, h5]
  · intro t2 e r1 r2 h1 h2
    cases e <;>
      simp [extract_location_eq thing, extract_location_eq t2, h1, h2]
  · intro hs
    rw [extract_location_eq]
    rcases hs with hfalsy | ⟨fo, rest, h1⟩
    · cases hLoc : pyGet thing "Locations" with
      | vNull => exact ⟨none, rfl⟩
      | vBool b =>
        rw [hLoc] at hfalsy
        simp [isFalsy] at hfalsy
        simp [hfalsy]
      | vInt i =>
        rw [hLoc] at hfalsy
        simp [isFalsy] at hfalsy
        simp [hfalsy]
      | vStr s =>
        rw [hLoc] at hfalsy
        simp [isFalsy] at hfalsy
        simp [hfalsy]
      | vObj fs =>
        rw [hLoc] at hfalsy
        simp [isFalsy] at hfalsy
        simp [hfalsy]
      | vArr xs =>
        rw [hLoc] at hfalsy
        simp [isFalsy] at hfalsy
        simp [hfalsy]
    · rw [h1]
      dsimp only
      cases hLo : pyGet fo "location"
      case vObj lo =>
        dsimp only
        cases hco : pyGet lo "coordinates" <;>
          first
          | (case vArr cs =>
              cases cs with
              | nil => exact ⟨none, by simp [hLo, hco]⟩
              | cons c0 cs2 =>
                cases cs2 with
                | nil => exact ⟨none, by simp [hLo, hco]⟩
                | cons c1 cs3 =>
                  cases hn0 : numVal c0
                  case none => exact ⟨none, by simp [hLo, hco, hn0]⟩
                  case some lon =>
                    cases hn1 : numVal c1
                    case none => exact ⟨none, by simp [hLo, hco, hn0, hn1]⟩
                    case some lat =>
                      exact ⟨some (.vObj [("lat", .vInt lat), ("lon", .vInt lon)]),
                        by simp [hLo, hco, hn0, hn1]⟩)
          | exact ⟨none, by simp [hLo, hco]⟩
      all_goals exact ⟨none, by simp [hLo]⟩

/-- Witness for the amended C8 at a concrete input: integer coordinates
`[7, 46]` yield `{lat: 46, lon: 7}`. -/
theorem claim8_witness :
    extract_location
        [("Locations", .vArr [.vObj [("location",
          .vObj [("coordinates", .vArr [.vInt 7, .vInt 46])])]])]
      = .ok (some (.vObj [("lat", .vInt 46), ("lon", .vInt 7)])) :=
  ((claim8_amended
    [("Locations", .vArr [.vObj [("location",
      .vObj [("coordinates", .vArr [.vInt 7, .vInt 46])])]])]).1
    (.vObj [("lat", .vInt 46), ("lon", .vInt 7)])).mpr
    ⟨[("location", .vObj [("coordinates", .vArr [.vInt 7, .vInt 46])])], [],
      [("coordinates", .vArr [.vInt 7, .vInt 46])], .vInt 7, .vInt 46, [], 7, 46,
      rfl, rfl, rfl, rfl, rfl, rfl⟩

/-! ## Claim C9: malformed persisted state -/

/-- A parsed records array all of whose elements are JSON objects converts
elementwise to a record list. -/
theorem toRecordList_map_vObj : ∀ rs : List Record,
    toRecordList (rs.map Value.vObj) = .ok rs := by
  intro rs
  induction rs with
  | nil => rfl
  | cons r rest ih => simp [toRecordList, ih, Except.map]

/-- Claim C9: in incremental mode, malformed persisted state never crashes
the pass and is treated as absent state, file by file.  (1) A missing or
unreadable/invalid records file behaves exactly like an absent one,
whatever the state file holds; (2) a missing or unreadable/invalid state
file, or one whose `signatures` entry is not a mapping, behaves exactly
like an absent one, whatever the records file holds; (3) with a malformed
records file and a well-formed state file the pass proceeds with an empty
previous-records list and the stored signature map; (4) with a well-formed
records file and a malformed state file the pass proceeds with the stored
records and an empty signature map; (5) with both files malformed the pass
proceeds into `apply_incremental_harvest` with an empty previous-records
list and an empty signature map. -/
theorem claim9_malformed_state_fallback (rf sf : FileState) :
    ((rf = .missing ∨ rf = .invalid) →
      load_incremental_state rf sf = load_incremental_state .missing sf)
    ∧ ((sf = .missing ∨ sf = .invalid
        ∨ ∃ fields w, sf = .valid (.vObj fields)
            ∧ lookupF fields "signatures" = some w
            ∧ (∀ gs, w ≠ .vObj gs)) →
      load_incremental_state rf sf = load_incremental_state rf .missing)
    ∧ ((rf = .missing ∨ rf = .invalid) →
      ∀ fields gs, sf = .valid (.vObj fields) →
        lookupF fields "signatures" = some (.vObj gs) →
        load_incremental_state rf sf = .ok ([], gs))
    ∧ (∀ rs : List Record, rf = .valid (.vArr (rs.map Value.vObj)) →
      (sf = .missing ∨ sf = .invalid
        ∨ ∃ fields w, sf = .valid (.vObj fields)
            ∧ lookupF fields "signatures" = some w
            ∧ (∀ gs, w ≠ .vObj gs)) →
      load_incremental_state rf sf = .ok (rs, []))
    ∧ ((rf = .missing ∨ rf = .invalid) →
      (sf = .missing ∨ sf = .invalid
        ∨ ∃ fields w, sf = .valid (.vObj fields)
            ∧ lookupF fields "signatures" = some w
            ∧ (∀ gs, w ≠ .vObj gs)) →
      load_incremental_state rf sf = .ok ([], [])
      ∧ ∀ cur, (load_incremental_state rf sf).map
          (fun ps => apply_incremental_harvest cur ps.1 ps.2)
        = .ok (apply_incremental_harvest cur [] [])) := by
  refine ⟨?_, ?_, ?_, ?_, ?_⟩
  · rintro (rfl | rfl) <;> rfl
  · rintro (rfl | rfl | ⟨fields, w, rfl, hlk, hno⟩)
    · rfl
    · rfl
    · unfold load_incremental_state load_json_file
      dsimp only
      rw [hlk]
      cases w
      case vObj gs => exact absurd rfl (hno gs)
      all_goals rfl
  · rintro (rfl | rfl) fields gs rfl hlk <;>
      (unfold load_incremental_state load_json_file
       dsimp only
       rw [hlk]
       rfl)
  · rintro rs rfl (rfl | rfl | ⟨fields, w, rfl, hlk, hno⟩)
    · unfold load_incremental_state load_json_file
      dsimp only
      rw [toRecordList_map_vObj]
      rfl
    · unfold load_incremental_state load_json_file
      dsimp only
      rw [toRecordList_map_vObj]
      rfl
    · unfold load_incremental_state load_json_file
      dsimp only
      rw [hlk]
      cases w
      case vObj gs => exact absurd rfl (hno gs)
      all_goals rw [toRecordList_map_vObj]
      all_goals rfl
  · intro hr hs
    have hmain : load_incremental_state rf sf = .ok ([], []) := by
      rcases hr with rfl | rfl <;>
        rcases hs with rfl | rfl | ⟨fields, w, rfl, hlk, hno⟩
      all_goals try rfl
      all_goals
        unfold load_incremental_state load_json_file
        dsimp only
        rw [hlk]
        cases w
        case vObj gs => exact absurd rfl (hno gs)
        all_goals rfl
    exact ⟨hmain, fun cur => by rw [hmain]; rfl⟩

/-- Witness for C9 at concrete inputs, covering the mixed cases: a valid
records file with an unreadable state file keeps the stored record and
empties the signature map; a missing records file with a valid state file
keeps the stored signature and empties the record list; two malformed
files yield the empty previous state. -/
theorem claim9_witness :
    load_incremental_state
        (.valid (.vArr [.vObj [("datastream_id", Value.vInt 1)]])) .invalid
      = .ok ([[("datastream_id", Value.vInt 1)]], [])
    ∧ load_incremental_state .missing
        (.valid (.vObj [("signatures", .vObj [("1", .vStr "abc")])]))
      = .ok ([], [("1", .vStr "abc")])
    ∧ load_incremental_state .invalid .missing = .ok ([], []) :=
  ⟨(claim9_malformed_state_fallback
      (.valid (.vArr [.vObj [("datastream_id", Value.vInt 1)]])) .invalid).2.2.2.1
      [[("datastream_id", Value.vInt 1)]] rfl (Or.inr (Or.inl rfl)),
   (claim9_malformed_state_fallback .missing
      (.valid (.vObj [("signatures", .vObj [("1", .vStr "abc")])]))).2.2.1
      (Or.inl rfl)
      [("signatures", .vObj [("1", .vStr "abc")])] [("1", .vStr "abc")] rfl rfl,
   ((claim9_malformed_state_fallback .invalid .missing).2.2.2.2
      (Or.inr rfl) (Or.inl rfl)).1⟩

/-! ## Claim C7: signature determinism and discrimination

### Key order and sorting lemmas -/

theorem char_toNat_inj (a b : Char) (h : a.toNat = b.toNat) : a = b := by
  apply Char.ext
  exact UInt32.ext h

theorem lexLe_refl : ∀ a : List Char, lexLe a a = true := by
  intro a
  induction a with
  | nil => rfl
  | cons c cs ih => simp [lexLe, ih]

theorem lexLe_total : ∀ a b : List Char, lexLe a b = true ∨ lexLe b a = true := by
  intro a
  induction a with
  | nil => intro b; exact Or.inl rfl
  | cons c cs ih =>
    intro b
    cases b with
    | nil => exact Or.inr rfl
    | cons d ds =>
      by_cases h1 : c.toNat < d.toNat
      · left; simp [lexLe, h1]
      · by_cases h2 : d.toNat < c.toNat
        · right; simp [lexLe, h2]
        · rcases ih ds with h | h
          · left; simp [lexLe, h1, h2, h]
          · right; simp [lexLe, h1, h2, h]

theorem lexLe_trans : ∀ a b c : List Char,
    lexLe a b = true → lexLe b c = true → lexLe a c = true := by
  intro a
  induction a with
  | nil => intro b c _ _; rfl
  | cons x xs ih =>
    intro b c hab hbc
    cases b with
    | nil => simp [lexLe] at hab
    | cons y ys =>
      cases c with
      | nil => simp [lexLe] at hbc
      | cons z zs =>
        simp only [lexLe] at hab hbc ⊢
        by_cases h1 : x.toNat < y.toNat
        · by_cases h2 : y.toNat < z.toNat
          · simp [show x.toNat < z.toNat by omega]
          · by_cases h3 : z.toNat < y.toNat
            · simp [h2, h3] at hbc
            · simp [show x.toNat < z.toNat by omega]
        · by_cases h4 : y.toNat < x.toNat
          · simp [h1, h4] at hab
          · by_cases h2 : y.toNat < z.toNat
            · simp [show x.toNat < z.toNat by omega]
            · by_cases h3 : z.toNat < y.toNat
              · simp [h2, h3] at hbc
              · have hx : ¬x.toNat < z.toNat := by omega
                have hz : ¬z.toNat < x.toNat := by omega
                simp only [h1, h4, if_false] at hab
                simp only [h2, h3, if_false] at hbc
                simp [hx, hz, ih ys zs hab hbc]

theorem lexLe_antisymm : ∀ a b : List Char,
    lexLe a b = true → lexLe b a = true → a = b := by
  intro a
  induction a with
  | nil =>
    intro b _ hba
    cases b with
    | nil => rfl
    | cons d ds => simp [lexLe] at hba
  | cons c cs ih =>
    intro b hab hba
    cases b with
    | nil => simp [lexLe] at hab
    | cons d ds =>
      simp only [lexLe] at hab hba
      by_cases h1 : c.toNat < d.toNat
      · have h2 : ¬d.toNat < c.toNat := by omega
        simp [h1, h2] at hba
      · by_cases h2 : d.toNat < c.toNat
        · simp [h1, h2] at hab
        · have hc : c = d := char_toNat_inj c d (by omega)
          simp only [h1, h2, if_false] at hab hba
          rw [hc, ih ds hab hba]

theorem insortKey_perm (p : String × Value) :
    ∀ l : List (String × Value), (insortKey p l).Perm (p :: l) := by
  intro l
  induction l with
  | nil => exact List.Perm.refl _
  | cons q rest ih =>
    unfold insortKey
    by_cases h : keyLe p q = true
    · rw [if_pos h]
    · rw [if_neg h]
      exact (ih.cons q).trans (List.Perm.swap p q rest)

theorem sortFields_perm : ∀ l : List (String × Value), (sortFields l).Perm l := by
  intro l
  induction l with
  | nil => exact List.Perm.refl _
  | cons p rest ih =>
    unfold sortFields
    exact (insortKey_perm p (sortFields rest)).trans (ih.cons p)

theorem insortKey_sorted (p : String × Value) :
    ∀ l : List (String × Value),
      l.Pairwise (fun a b => keyLe a b = true) →
      (insortKey p l).Pairwise (fun a b => keyLe a b = true) := by
  intro l
  induction l with
  | nil => intro _; exact List.pairwise_singleton _ p
  | cons q rest ih =>
    intro hs
    rw [List.pairwise_cons] at hs
    unfold insortKey
    by_cases h : keyLe p q = true
    · rw [if_pos h]
      rw [List.pairwise_cons]
      refine ⟨?_, List.pairwise_cons.mpr hs⟩
      intro x hx
      rcases List.mem_cons.mp hx with rfl | hx
      · exact h
      · exact lexLe_trans _ _ _ h (hs.1 x hx)
    · rw [if_neg h]
      have hqp : keyLe q p = true := by
        rcases lexLe_total p.1.data q.1.data with ht | ht
        · exact absurd ht h
        · exact ht
      rw [List.pairwise_cons]
      refine ⟨?_, ih hs.2⟩
      intro x hx
      have hx2 := (insortKey_perm p rest).mem_iff.mp hx
      rcases List.mem_cons.mp hx2 with rfl | hx2
      · exact hqp
      · exact hs.1 x hx2

theorem sortFields_sorted : ∀ l : List (String × Value),
    (sortFields l).Pairwise (fun a b => keyLe a b = true) := by
  intro l
  induction l with
  | nil => exact List.Pairwise.nil
  | cons p rest ih => exact insortKey_sorted p (sortFields rest) ih

theorem eq_of_perm_sorted_nodupkeys :
    ∀ l1 l2 : List (String × Value), l1.Perm l2 →
      l1.Pairwise (fun a b => keyLe a b = true) →
      l2.Pairwise (fun a b => keyLe a b = true) →
      (l1.map Prod.fst).Nodup → l1 = l2 := by
  intro l1
  induction l1 with
  | nil => intro l2 hp _ _ _; exact hp.nil_eq
  | cons a t1 ih =>
    intro l2 hp hs1 hs2 hnd
    cases l2 with
    | nil => exact absurd hp.symm.nil_eq (by simp)
    | cons b t2 =>
      rw [List.pairwise_cons] at hs1 hs2
      rw [List.map_cons, List.nodup_cons] at hnd
      have hamem : a ∈ b :: t2 := hp.mem_iff.mp (List.mem_cons_self a t1)
      have hbmem : b ∈ a :: t1 := hp.symm.mem_iff.mp (List.mem_cons_self b t2)
      have h1 : keyLe a b = true := by
        rcases List.mem_cons.mp hbmem with rfl | hb
        · exact lexLe_refl _
        · exact hs1.1 b hb
      have h2 : keyLe b a = true := by
        rcases List.mem_cons.mp hamem with rfl | ha
        · exact lexLe_refl _
        · exact hs2.1 a ha
      have hdata : a.1.data = b.1.data := lexLe_antisymm _ _ h1 h2
      have hkey : a.1 = b.1 := String.ext hdata
      have hab : a = b := by
        rcases List.mem_cons.mp hbmem with rfl | hb
        · rfl
        · rcases List.mem_cons.mp hamem with rfl | ha
          · rfl
          · exact absurd (by rw [hkey]; exact List.mem_map_of_mem Prod.fst hb) hnd.1
      subst hab
      have hpt : t1.Perm t2 := hp.cons_inv
      rw [ih t2 hpt hs1.2 hs2.2 hnd.2]

/-! ### Canonical form and signature determinism -/

theorem canonFields_eq_map : ∀ l : List (String × Value),
    canonFields l = l.map (fun p => (p.1, canonV p.2)) := by
  intro l
  induction l with
  | nil => rfl
  | cons p rest ih =>
    obtain ⟨k, v⟩ := p
    simp [canonFields, ih]

theorem map_fst_canonFields (l : List (String × Value)) :
    (canonFields l).map Prod.fst = l.map Prod.fst := by
  rw [canonFields_eq_map, List.map_map]
  rfl

theorem canonV_obj (fs : List (String × Value)) :
    canonV (.vObj fs) = .vObj (sortFields (canonFields fs)) := rfl

theorem record_signature_perm (R1 R2 : Record) (hperm : R1.Perm R2)
    (hnd : (R1.map Prod.fst).Nodup) :
    record_signature R1 = record_signature R2 := by
  unfold record_signature
  suffices h : canonV (.vObj R1) = canonV (.vObj R2) by rw [h]
  rw [canonV_obj, canonV_obj]
  have hcf : (canonFields R1).Perm (canonFields R2) := by
    rw [canonFields_eq_map, canonFields_eq_map]
    exact hperm.map _
  have hperm2 : (sortFields (canonFields R1)).Perm (sortFields (canonFields R2)) :=
    ((sortFields_perm _).trans hcf).trans (sortFields_perm _).symm
  have hnd2 : ((sortFields (canonFields R1)).map Prod.fst).Nodup := by
    have hp : ((sortFields (canonFields R1)).map Prod.fst).Perm (R1.map Prod.fst) := by
      have := (sortFields_perm (canonFields R1)).map Prod.fst
      rwa [map_fst_canonFields] at this
    exact hp.symm.nodup hnd
  rw [eq_of_perm_sorted_nodupkeys _ _ hperm2 (sortFields_sorted _) (sortFields_sorted _) hnd2]

/-! ### Decimal digit lemmas -/

theorem natCharsCore_acc : ∀ (fuel n : Nat) (acc : List Char),
    natCharsCore fuel n acc = natCharsCore fuel n [] ++ acc := by
  intro fuel
  induction fuel with
  | zero => intro n acc; rfl
  | succ f ih =>
    intro n acc
    by_cases h : n < 10
    · simp [natCharsCore, h]
    · simp only [natCharsCore, h, if_false]
      rw [ih (n / 10) (Nat.digitChar (n % 10) :: acc), ih (n / 10) [Nat.digitChar (n % 10)]]
      simp

theorem natCharsCore_fuel : ∀ (f1 : Nat), ∀ (f2 n : Nat) (acc : List Char),
    n < f1 → n < f2 → natCharsCore f1 n acc = natCharsCore f2 n acc := by
  intro f1
  induction f1 with
  | zero => intro f2 n acc h1 _; omega
  | succ g ih =>
    intro f2 n acc h1 h2
    cases f2 with
    | zero => omega
    | succ g2 =>
      by_cases h : n < 10
      · simp [natCharsCore, h]
      · simp only [natCharsCore, h, if_false]
        have hd : n / 10 < n := Nat.div_lt_self (by omega) (by omega)
        exact ih g2 (n / 10) _ (by omega) (by omega)

theorem natChars_eq (n : Nat) :
    natChars n = if n < 10 then [Nat.digitChar n]
      else natChars (n / 10) ++ [Nat.digitChar (n % 10)] := by
  by_cases h : n < 10
  · rw [if_pos h]
    show natCharsCore (n + 1) n [] = _
    simp [natCharsCore, h]
  · rw [if_neg h]
    show natCharsCore (n + 1) n [] = natCharsCore (n / 10 + 1) (n / 10) []
      ++ [Nat.digitChar (n % 10)]
    have hd : n / 10 < n := Nat.div_lt_self (by omega) (by omega)
    rw [show natCharsCore (n + 1) n [] = natCharsCore n (n / 10) [Nat.digitChar (n % 10)]
      from by simp [natCharsCore, h]]
    rw [natCharsCore_acc n (n / 10) [Nat.digitChar (n % 10)],
      natCharsCore_fuel n (n / 10 + 1) (n / 10) [] (by omega) (by omega)]

theorem digitChar_isDigit (m : Nat) (h : m < 10) : (Nat.digitChar m).isDigit = true := by
  interval_cases m <;> rfl

theorem digitChar_val (m : Nat) (h : m < 10) : (Nat.digitChar m).toNat - 48 = m := by
  interval_cases m <;> rfl

theorem natChars_ne_nil (n : Nat) : natChars n ≠ [] := by
  rw [natChars_eq]
  by_cases h : n < 10
  · simp [h]
  · simp [h]

theorem natChars_all_digits (n : Nat) : ∀ c ∈ natChars n, c.isDigit = true := by
  induction n using Nat.strong_induction_on with
  | _ n ih =>
    rw [natChars_eq]
    by_cases h : n < 10
    · simp only [h, if_true, List.mem_singleton]
      intro c hc
      rw [hc]
      exact digitChar_isDigit n h
    · simp only [h, if_false]
      intro c hc
      rcases List.mem_append.mp hc with hc | hc
      · exact ih (n / 10) (Nat.div_lt_self (by omega) (by omega)) c hc
      · rw [List.mem_singleton.mp hc]
        exact digitChar_isDigit (n % 10) (by omega)

theorem natChars_head (n : Nat) :
    ∃ c cs, natChars n = c :: cs ∧ c.isDigit = true := by
  cases hn : natChars n with
  | nil => exact absurd hn (natChars_ne_nil n)
  | cons c cs =>
    refine ⟨c, cs, rfl, ?_⟩
    exact natChars_all_digits n c (by rw [hn]; exact List.mem_cons_self c cs)

theorem digitsVal_append_one (l : List Char) (c : Char) :
    digitsVal (l ++ [c]) = digitsVal l * 10 + (c.toNat - 48) := by
  simp [digitsVal, List.foldl_append]

theorem natChars_val (n : Nat) : digitsVal (natChars n) = n := by
  induction n using Nat.strong_induction_on with
  | _ n ih =>
    rw [natChars_eq]
    by_cases h : n < 10
    · simp only [h, if_true]
      show 0 * 10 + ((Nat.digitChar n).toNat - 48) = n
      rw [digitChar_val n h]
      omega
    · simp only [h, if_false]
      rw [digitsVal_append_one, ih (n / 10) (Nat.div_lt_self (by omega) (by omega)),
        digitChar_val (n % 10) (by omega)]
      omega

theorem natChars_inj (n1 n2 : Nat) (h : natChars n1 = natChars n2) : n1 = n2 := by
  rw [← natChars_val n1, ← natChars_val n2, h]

theorem digits_prefix_inj : ∀ (d1 d2 r1 r2 : List Char),
    (∀ c ∈ d1, c.isDigit = true) → (∀ c ∈ d2, c.isDigit = true) →
    GTail r1 → GTail r2 → d1 ++ r1 = d2 ++ r2 → d1 = d2 ∧ r1 = r2 := by
  intro d1
  induction d1 with
  | nil =>
    intro d2 r1 r2 _ hd2 g1 _ h
    cases d2 with
    | nil => exact ⟨rfl, h⟩
    | cons c t =>
      exfalso
      rw [List.nil_append, List.cons_append] at h
      have := g1 c (t ++ r2) h
      rw [hd2 c (List.mem_cons_self c t)] at this
      simp at this
  | cons c t iht =>
    intro d2 r1 r2 hd1 hd2 g1 g2 h
    cases d2 with
    | nil =>
      exfalso
      rw [List.nil_append, List.cons_append] at h
      have := g2 c (t ++ r1) h.symm
      rw [hd1 c (List.mem_cons_self c t)] at this
      simp at this
    | cons c2 t2 =>
      rw [List.cons_append, List.cons_append] at h
      injection h with h1 h2
      subst h1
      obtain ⟨ht, hr⟩ := iht t2 r1 r2 (fun x hx => hd1 x (List.mem_cons_of_mem c hx))
        (fun x hx => hd2 x (List.mem_cons_of_mem c hx)) g1 g2 h2
      exact ⟨by rw [ht], hr⟩

theorem intChars_prefix_inj (i1 i2 : Int) (r1 r2 : List Char)
    (h : intChars i1 ++ r1 = intChars i2 ++ r2) (g1 : GTail r1) (g2 : GTail r2) :
    i1 = i2 ∧ r1 = r2 := by
  unfold intChars at h
  by_cases h1 : i1 < 0 <;> by_cases h2 : i2 < 0
  · rw [if_pos h1, if_pos h2, List.cons_append, List.cons_append] at h
    injection h with _ h
    obtain ⟨hd, hr⟩ := digits_prefix_inj _ _ r1 r2
      (natChars_all_digits _) (natChars_all_digits _) g1 g2 h
    refine ⟨?_, hr⟩
    have := natChars_inj _ _ hd
    omega
  · exfalso
    rw [if_pos h1, if_neg h2] at h
    obtain ⟨c, cs, he, hdg⟩ := natChars_head i2.toNat
    rw [he, List.cons_append, List.cons_append] at h
    injection h with h1' _
    rw [← h1'] at hdg
    simp at hdg
  · exfalso
    rw [if_neg h1, if_pos h2] at h
    obtain ⟨c, cs, he, hdg⟩ := natChars_head i1.toNat
    rw [he, List.cons_append, List.cons_append] at h
    injection h with h1' _
    rw [h1'] at hdg
    simp at hdg
  · rw [if_neg h1, if_neg h2] at h
    obtain ⟨hd, hr⟩ := digits_prefix_inj _ _ r1 r2
      (natChars_all_digits _) (natChars_all_digits _) g1 g2 h
    refine ⟨?_, hr⟩
    have := natChars_inj _ _ hd
    omega

/-! ### String-literal lemmas -/

theorem escC_spec (c : Char) :
    (escC c = [c] ∧ c ≠ '"' ∧ c ≠ '\\')
      ∨ (∃ d, escC c = ['\\', d] ∧ escCode d = some c) := by
  by_cases h1 : c = '"'
  · exact Or.inr ⟨'"', by simp [escC, h1], by simp [escCode, h1]⟩
  · by_cases h2 : c = '\\'
    · exact Or.inr ⟨'\\', by simp [escC, h1, h2], by simp [escCode, h2]⟩
    · by_cases h3 : c = '\n'
      · exact Or.inr ⟨'n', by simp [escC, h1, h2, h3], by simp [escCode, h3]⟩
      · by_cases h4 : c = '\t'
        · exact Or.inr ⟨'t', by simp [escC, h1, h2, h3, h4], by simp [escCode, h4]⟩
        · by_cases h5 : c = '\r'
          · exact Or.inr ⟨'r', by simp [escC, h1, h2, h3, h4, h5], by simp [escCode, h5]⟩
          · exact Or.inl ⟨by simp [escC, h1, h2, h3, h4, h5], h1, h2⟩

theorem escS_quote_inj : ∀ (s1 s2 r1 r2 : List Char),
    escS s1 ++ '"' :: r1 = escS s2 ++ '"' :: r2 → s1 = s2 ∧ r1 = r2 := by
  intro s1
  induction s1 with
  | nil =>
    intro s2 r1 r2 h
    cases s2 with
    | nil =>
      simp only [escS, List.nil_append] at h
      injection h with _ h
      exact ⟨rfl, h⟩
    | cons d ds =>
      exfalso
      rcases escC_spec d with ⟨he, hne, _⟩ | ⟨y, he, _⟩
      · rw [show escS (d :: ds) = escC d ++ escS ds from rfl, he] at h
        simp only [List.nil_append, List.cons_append, List.append_assoc] at h
        injection h with h1 _
        exact hne h1.symm
      · rw [show escS (d :: ds) = escC d ++ escS ds from rfl, he] at h
        simp only [List.nil_append, List.cons_append, List.append_assoc] at h
        injection h with h1 _
        simp at h1
  | cons c cs ih =>
    intro s2 r1 r2 h
    cases s2 with
    | nil =>
      exfalso
      rcases escC_spec c with ⟨he, hne, _⟩ | ⟨y, he, _⟩
      · rw [show escS (c :: cs) = escC c ++ escS cs from rfl, he] at h
        simp only [List.nil_append, List.cons_append, List.append_assoc] at h
        injection h with h1 _
        exact hne h1
      · rw [show escS (c :: cs) = escC c ++ escS cs from rfl, he] at h
        simp only [List.nil_append, List.cons_append, List.append_assoc] at h
        injection h with h1 _
        simp at h1
    | cons d ds =>
      rw [show escS (c :: cs) = escC c ++ escS cs from rfl,
        show escS (d :: ds) = escC d ++ escS ds from rfl] at h
      rcases escC_spec c with ⟨hec, hc1, hc2⟩ | ⟨x, hec, hcx⟩ <;>
        rcases escC_spec d with ⟨hed, hd1, hd2⟩ | ⟨y, hed, hdy⟩
      · rw [hec, hed] at h
        simp only [List.cons_append, List.append_assoc, List.nil_append] at h
        injection h with h1 h2
        obtain ⟨hs, hr⟩ := ih ds r1 r2 h2
        rw [h1, hs]
        exact ⟨rfl, hr⟩
      · rw [hec, hed] at h
        simp only [List.cons_append, List.append_assoc, List.nil_append] at h
        injection h with h1 _
        exact absurd h1 hc2
      · rw [hec, hed] at h
        simp only [List.cons_append, List.append_assoc, List.nil_append] at h
        injection h with h1 _
        exact absurd h1.symm hd2
      · rw [hec, hed] at h
        simp only [List.cons_append, List.append_assoc, List.nil_append] at h
        injection h with _ h
        injection h with h1 h2
        rw [h1] at hcx
        rw [hcx] at hdy
        injection hdy with hcd
        obtain ⟨hs, hr⟩ := ih ds r1 r2 h2
        rw [hcd, hs]
        exact ⟨rfl, hr⟩

theorem quoteS_prefix_inj (a b : String) (r1 r2 : List Char)
    (h : quoteS a ++ r1 = quoteS b ++ r2) : a = b ∧ r1 = r2 := by
  unfold quoteS at h
  rw [List.cons_append, List.cons_append] at h
  injection h with _ h
  simp only [List.append_eq, List.append_assoc, List.singleton_append] at h
  obtain ⟨hd, hr⟩ := escS_quote_inj a.data b.data r1 r2 h
  exact ⟨String.ext hd, hr⟩

/-! ### Serializer injectivity -/

theorem append_head_eq {c1 c2 : Char} {t1 t2 r1 r2 : List Char}
    (h : (c1 :: t1) ++ r1 = (c2 :: t2) ++ r2) : c1 = c2 := by
  rw [List.cons_append, List.cons_append, List.cons.injEq] at h
  exact h.1

theorem gtail_cons (c0 : Char) (h : c0.isDigit = false) (l : List Char) :
    GTail (c0 :: l) := by
  intro c cs heq
  injection heq with h1 _
  rw [← h1]
  exact h

theorem serV_int_head (i : Int) :
    ∃ c cs, serV (.vInt i) = c :: cs ∧ (c = '-' ∨ c.isDigit = true) := by
  show ∃ c cs, intChars i = c :: cs ∧ _
  unfold intChars
  by_cases h : i < 0
  · rw [if_pos h]
    exact ⟨'-', _, rfl, Or.inl rfl⟩
  · rw [if_neg h]
    obtain ⟨c, cs, he, hd⟩ := natChars_head i.toNat
    exact ⟨c, cs, he, Or.inr hd⟩

theorem serV_head (v : Value) : ∃ c cs, serV v = c :: cs ∧
    (c = 'n' ∨ c = 't' ∨ c = 'f' ∨ c = '"' ∨ c = '{' ∨ c = '['
      ∨ c = '-' ∨ c.isDigit = true) := by
  cases v with
  | vNull => exact ⟨'n', _, rfl, by simp⟩
  | vBool b =>
    cases b
    · exact ⟨'f', _, rfl, by simp⟩
    · exact ⟨'t', _, rfl, by simp⟩
  | vInt i =>
    obtain ⟨c, cs, he, hd⟩ := serV_int_head i
    refine ⟨c, cs, he, ?_⟩
    rcases hd with rfl | hd
    · simp
    · simp [hd]
  | vStr s => exact ⟨'"', _, rfl, by simp⟩
  | vObj fs => exact ⟨'{', _, rfl, by simp⟩
  | vArr xs => exact ⟨'[', _, rfl, by simp⟩

theorem serF_prefix_inj_of : ∀ (fs1 : List (String × Value)),
    (∀ p ∈ fs1, ∀ (w : Value) (t1 t2 : List Char),
      serV p.2 ++ t1 = serV w ++ t2 → GTail t1 → GTail t2 → p.2 = w ∧ t1 = t2) →
    ∀ (fs2 : List (String × Value)) (r1 r2 : List Char),
      serF fs1 ++ '}' :: r1 = serF fs2 ++ '}' :: r2 → fs1 = fs2 ∧ r1 = r2 := by
  intro fs1
  induction fs1 with
  | nil =>
    intro _ fs2 r1 r2 h
    cases fs2 with
    | nil =>
      simp only [serF, List.nil_append] at h
      rw [List.cons.injEq] at h
      exact ⟨rfl, h.2⟩
    | cons q t2' =>
      exfalso
      obtain ⟨k2, v2⟩ := q
      simp only [serF, quoteS, List.nil_append, List.cons_append, List.append_assoc] at h
      rw [List.cons.injEq] at h
      exact absurd h.1 (by decide)
  | cons p t1' iht =>
    intro IH fs2 r1 r2 h
    obtain ⟨k1, v1⟩ := p
    cases fs2 with
    | nil =>
      exfalso
      simp only [serF, quoteS, List.nil_append, List.cons_append, List.append_assoc] at h
      rw [List.cons.injEq] at h
      exact absurd h.1 (by decide)
    | cons q t2' =>
      obtain ⟨k2, v2⟩ := q
      simp only [serF, List.cons_append, List.append_assoc] at h
      obtain ⟨hk, hrest⟩ := quoteS_prefix_inj k1 k2 _ _ h
      rw [List.cons.injEq] at hrest
      replace hrest := hrest.2
      rw [List.cons.injEq] at hrest
      replace hrest := hrest.2
      cases t1' with
      | nil =>
        cases t2' with
        | nil =>
          simp only [List.nil_append] at hrest
          obtain ⟨hv, htail⟩ := IH (k1, v1) (List.mem_cons_self _ _) v2 _ _ hrest
            (gtail_cons '}' rfl r1) (gtail_cons '}' rfl r2)
          have hv2 : v1 = v2 := hv
          rw [List.cons.injEq] at htail
          rw [hk, hv2, htail.2]
          exact ⟨rfl, rfl⟩
        | cons a2 b2 =>
          exfalso
          simp only [List.nil_append, List.cons_append] at hrest
          obtain ⟨hv, htail⟩ := IH (k1, v1) (List.mem_cons_self _ _) v2 _ _ hrest
            (gtail_cons '}' rfl r1) (gtail_cons ',' rfl _)
          rw [List.cons.injEq] at htail
          exact absurd htail.1 (by decide)
      | cons a1 b1 =>
        cases t2' with
        | nil =>
          exfalso
          simp only [List.nil_append, List.cons_append] at hrest
          obtain ⟨hv, htail⟩ := IH (k1, v1) (List.mem_cons_self _ _) v2 _ _ hrest
            (gtail_cons ',' rfl _) (gtail_cons '}' rfl r2)
          rw [List.cons.injEq] at htail
          exact absurd htail.1 (by decide)
        | cons a2 b2 =>
          simp only [List.cons_append] at hrest
          obtain ⟨hv, htail⟩ := IH (k1, v1) (List.mem_cons_self _ _) v2 _ _ hrest
            (gtail_cons ',' rfl _) (gtail_cons ',' rfl _)
          have hv2 : v1 = v2 := hv
          rw [List.cons.injEq] at htail
          replace htail := htail.2
          rw [List.cons.injEq] at htail
          replace htail := htail.2
          obtain ⟨ht, hr⟩ := iht
            (fun p hp => IH p (List.mem_cons_of_mem _ hp)) (a2 :: b2) r1 r2 htail
          rw [hk, hv2, ht]
          exact ⟨rfl, hr⟩

theorem serA_prefix_inj_of : ∀ (xs1 : List Value),
    (∀ v ∈ xs1, ∀ (w : Value) (t1 t2 : List Char),
      serV v ++ t1 = serV w ++ t2 → GTail t1 → GTail t2 → v = w ∧ t1 = t2) →
    ∀ (xs2 : List Value) (r1 r2 : List Char),
      serA xs1 ++ ']' :: r1 = serA xs2 ++ ']' :: r2 → xs1 = xs2 ∧ r1 = r2 := by
  intro xs1
  induction xs1 with
  | nil =>
    intro _ xs2 r1 r2 h
    cases xs2 with
    | nil =>
      simp only [serA, List.nil_append] at h
      rw [List.cons.injEq] at h
      exact ⟨rfl, h.2⟩
    | cons w t2' =>
      exfalso
      obtain ⟨c, cs, he, hd⟩ := serV_head w
      simp only [serA, List.nil_append, he, List.cons_append, List.append_assoc] at h
      rw [List.cons.injEq] at h
      have h1 := h.1
      rw [← h1] at hd
      rcases hd with h2 | h2 | h2 | h2 | h2 | h2 | h2 | h2 <;> exact absurd h2 (by decide)
  | cons v1 t1' iht =>
    intro IH xs2 r1 r2 h
    cases xs2 with
    | nil =>
      exfalso
      obtain ⟨c, cs, he, hd⟩ := serV_head v1
      simp only [serA, List.nil_append, he, List.cons_append, List.append_assoc] at h
      rw [List.cons.injEq] at h
      have h1 := h.1
      rw [h1] at hd
      rcases hd with h2 | h2 | h2 | h2 | h2 | h2 | h2 | h2 <;> exact absurd h2 (by decide)
    | cons v2 t2' =>
      simp only [serA, List.append_assoc] at h
      cases t1' with
      | nil =>
        cases t2' with
        | nil =>
          simp only [List.nil_append] at h
          obtain ⟨hv, htail⟩ := IH v1 (List.mem_cons_self _ _) v2 _ _ h
            (gtail_cons ']' rfl r1) (gtail_cons ']' rfl r2)
          rw [List.cons.injEq] at htail
          rw [hv, htail.2]
          exact ⟨rfl, rfl⟩
        | cons a2 b2 =>
          exfalso
          simp only [List.nil_append, List.cons_append] at h
          obtain ⟨hv, htail⟩ := IH v1 (List.mem_cons_self _ _) v2 _ _ h
            (gtail_cons ']' rfl r1) (gtail_cons ',' rfl _)
          rw [List.cons.injEq] at htail
          exact absurd htail.1 (by decide)
      | cons a1 b1 =>
        cases t2' with
        | nil =>
          exfalso
          simp only [List.nil_append, List.cons_append] at h
          obtain ⟨hv, htail⟩ := IH v1 (List.mem_cons_self _ _) v2 _ _ h
            (gtail_cons ',' rfl _) (gtail_cons ']' rfl r2)
          rw [List.cons.injEq] at htail
          exact absurd htail.1 (by decide)
        | cons a2 b2 =>
          simp only [List.cons_append] at h
          obtain ⟨hv, htail⟩ := IH v1 (List.mem_cons_self _ _) v2 _ _ h
            (gtail_cons ',' rfl _) (gtail_cons ',' rfl _)
          rw [List.cons.injEq] at htail
          replace htail := htail.2
          rw [List.cons.injEq] at htail
          replace htail := htail.2
          obtain ⟨ht, hr⟩ := iht
            (fun p hp => IH p (List.mem_cons_of_mem _ hp)) (a2 :: b2) r1 r2 htail
          rw [hv, ht]
          exact ⟨rfl, hr⟩

theorem serV_null_head : serV .vNull = 'n' :: ['u', 'l', 'l'] := rfl

theorem serV_true_head : serV (.vBool true) = 't' :: ['r', 'u', 'e'] := rfl

theorem serV_false_head : serV (.vBool false) = 'f' :: ['a', 'l', 's', 'e'] := rfl

theorem serV_str_head (s : String) : serV (.vStr s) = '"' :: (escS s.data ++ ['"']) := rfl

theorem serV_obj_head (fs : List (String × Value)) :
    serV (.vObj fs) = '{' :: (serF fs ++ ['}']) := rfl

theorem serV_arr_head (xs : List Value) :
    serV (.vArr xs) = '[' :: (serA xs ++ [']']) := rfl

theorem int_cross_absurd {i : Int} {c0 : Char} {t0 r1 r2 : List Char}
    (h : serV (.vInt i) ++ r1 = (c0 :: t0) ++ r2)
    (hn : ¬(c0 = '-' ∨ c0.isDigit = true)) : False := by
  obtain ⟨c, cs, e, hd⟩ := serV_int_head i
  rw [e] at h
  have hc := append_head_eq h
  rw [hc] at hd
  exact hn hd

theorem serV_prefix_inj : ∀ (v1 v2 : Value) (r1 r2 : List Char),
    serV v1 ++ r1 = serV v2 ++ r2 → GTail r1 → GTail r2 → v1 = v2 ∧ r1 = r2
  | .vNull, v2, r1, r2, h, g1, g2 => by
    cases v2 with
    | vNull => exact ⟨rfl, by simpa using h⟩
    | vBool b =>
      exfalso
      cases b
      · exact absurd (append_head_eq (serV_false_head ▸ serV_null_head ▸ h)) (by decide)
      · exact absurd (append_head_eq (serV_true_head ▸ serV_null_head ▸ h)) (by decide)
    | vInt i => exact absurd (int_cross_absurd ((serV_null_head ▸ h).symm) (by decide)) id
    | vStr s => exact absurd (append_head_eq (serV_str_head s ▸ serV_null_head ▸ h)) (by decide)
    | vObj fs => exact absurd (append_head_eq (serV_obj_head fs ▸ serV_null_head ▸ h)) (by decide)
    | vArr xs => exact absurd (append_head_eq (serV_arr_head xs ▸ serV_null_head ▸ h)) (by decide)
  | .vBool b1, v2, r1, r2, h, g1, g2 => by
    cases v2 with
    | vNull =>
      exfalso
      cases b1
      · exact absurd (append_head_eq (serV_null_head ▸ serV_false_head ▸ h)) (by decide)
      · exact absurd (append_head_eq (serV_null_head ▸ serV_true_head ▸ h)) (by decide)
    | vBool b2 =>
      cases b1 <;> cases b2
      · exact ⟨rfl, by simpa using h⟩
      · exact absurd (append_head_eq (serV_true_head ▸ serV_false_head ▸ h)) (by decide)
      · exact absurd (append_head_eq (serV_false_head ▸ serV_true_head ▸ h)) (by decide)
      · exact ⟨rfl, by simpa using h⟩
    | vInt i =>
      exfalso
      cases b1
      · exact int_cross_absurd ((serV_false_head ▸ h).symm) (by decide)
      · exact int_cross_absurd ((serV_true_head ▸ h).symm) (by decide)
    | vStr s =>
      exfalso
      cases b1
      · exact absurd (append_head_eq (serV_str_head s ▸ serV_false_head ▸ h)) (by decide)
      · exact absurd (append_head_eq (serV_str_head s ▸ serV_true_head ▸ h)) (by decide)
    | vObj fs =>
      exfalso
      cases b1
      · exact absurd (append_head_eq (serV_obj_head fs ▸ serV_false_head ▸ h)) (by decide)
      · exact absurd (append_head_eq (serV_obj_head fs ▸ serV_true_head ▸ h)) (by decide)
    | vArr xs =>
      exfalso
      cases b1
      · exact absurd (append_head_eq (serV_arr_head xs ▸ serV_false_head ▸ h)) (by decide)
      · exact absurd (append_head_eq (serV_arr_head xs ▸ serV_true_head ▸ h)) (by decide)
  | .vInt i1, v2, r1, r2, h, g1, g2 => by
    cases v2 with
    | vNull => exact absurd (int_cross_absurd (serV_null_head ▸ h) (by decide)) id
    | vBool b =>
      exfalso
      cases b
      · exact int_cross_absurd (serV_false_head ▸ h) (by decide)
      · exact int_cross_absurd (serV_true_head ▸ h) (by decide)
    | vInt i2 =>
      obtain ⟨hi, hr⟩ := intChars_prefix_inj i1 i2 r1 r2 h g1 g2
      exact ⟨by rw [hi], hr⟩
    | vStr s => exact absurd (int_cross_absurd (serV_str_head s ▸ h) (by decide)) id
    | vObj fs => exact absurd (int_cross_absurd (serV_obj_head fs ▸ h) (by decide)) id
    | vArr xs => exact absurd (int_cross_absurd (serV_arr_head xs ▸ h) (by decide)) id
  | .vStr s1, v2, r1, r2, h, g1, g2 => by
    cases v2 with
    | vNull => exact absurd (append_head_eq (serV_null_head ▸ serV_str_head s1 ▸ h)) (by decide)
    | vBool b =>
      exfalso
      cases b
      · exact absurd (append_head_eq (serV_false_head ▸ serV_str_head s1 ▸ h)) (by decide)
      · exact absurd (append_head_eq (serV_true_head ▸ serV_str_head s1 ▸ h)) (by decide)
    | vInt i => exact absurd (int_cross_absurd ((serV_str_head s1 ▸ h).symm) (by decide)) id
    | vStr s2 =>
      obtain ⟨hs, hr⟩ := quoteS_prefix_inj s1 s2 r1 r2 h
      exact ⟨by rw [hs], hr⟩
    | vObj fs => exact absurd (append_head_eq (serV_obj_head fs ▸ serV_str_head s1 ▸ h)) (by decide)
    | vArr xs => exact absurd (append_head_eq (serV_arr_head xs ▸ serV_str_head s1 ▸ h)) (by decide)
  | .vObj fs1, v2, r1, r2, h, g1, g2 => by
    cases v2 with
    | vNull => exact absurd (append_head_eq (serV_null_head ▸ serV_obj_head fs1 ▸ h)) (by decide)
    | vBool b =>
      exfalso
      cases b
      · exact absurd (append_head_eq (serV_false_head ▸ serV_obj_head fs1 ▸ h)) (by decide)
      · exact absurd (append_head_eq (serV_true_head ▸ serV_obj_head fs1 ▸ h)) (by decide)
    | vInt i => exact absurd (int_cross_absurd ((serV_obj_head fs1 ▸ h).symm) (by decide)) id
    | vStr s => exact absurd (append_head_eq (serV_str_head s ▸ serV_obj_head fs1 ▸ h)) (by decide)
    | vObj fs2 =>
      rw [serV_obj_head, serV_obj_head, List.cons_append, List.cons_append,
        List.cons.injEq] at h
      have h2 := h.2
      rw [List.append_assoc, List.append_assoc, List.singleton_append,
        List.singleton_append] at h2
      obtain ⟨hf, hr⟩ := serF_prefix_inj_of fs1
        (fun p hp w t1 t2 hh gg1 gg2 => serV_prefix_inj p.2 w t1 t2 hh gg1 gg2)
        fs2 r1 r2 h2
      exact ⟨by rw [hf], hr⟩
    | vArr xs => exact absurd (append_head_eq (serV_arr_head xs ▸ serV_obj_head fs1 ▸ h)) (by decide)
  | .vArr xs1, v2, r1, r2, h, g1, g2 => by
    cases v2 with
    | vNull => exact absurd (append_head_eq (serV_null_head ▸ serV_arr_head xs1 ▸ h)) (by decide)
    | vBool b =>
      exfalso
      cases b
      · exact absurd (append_head_eq (serV_false_head ▸ serV_arr_head xs1 ▸ h)) (by decide)
      · exact absurd (append_head_eq (serV_true_head ▸ serV_arr_head xs1 ▸ h)) (by decide)
    | vInt i => exact absurd (int_cross_absurd ((serV_arr_head xs1 ▸ h).symm) (by decide)) id
    | vStr s => exact absurd (append_head_eq (serV_str_head s ▸ serV_arr_head xs1 ▸ h)) (by decide)
    | vObj fs => exact absurd (append_head_eq (serV_obj_head fs ▸ serV_arr_head xs1 ▸ h)) (by decide)
    | vArr xs2 =>
      rw [serV_arr_head, serV_arr_head, List.cons_append, List.cons_append,
        List.cons.injEq] at h
      have h2 := h.2
      rw [List.append_assoc, List.append_assoc, List.singleton_append,
        List.singleton_append] at h2
      obtain ⟨hf, hr⟩ := serA_prefix_inj_of xs1
        (fun p hp w t1 t2 hh gg1 gg2 => serV_prefix_inj p w t1 t2 hh gg1 gg2)
        xs2 r1 r2 h2
      exact ⟨by rw [hf], hr⟩
termination_by v1 _ _ _ _ _ _ => sizeOf v1
decreasing_by
  all_goals have hs := List.sizeOf_lt_of_mem hp
  · obtain ⟨ka, va⟩ := p
    simp only [Prod.mk.sizeOf_spec] at hs
    simp
    omega
  · simp
    omega

theorem lookupF_perm {α : Type} (k : String) :
    ∀ {l1 l2 : List (String × α)}, l1.Perm l2 →
      (l1.map Prod.fst).Nodup → lookupF l1 k = lookupF l2 k := by
  intro l1 l2 hp
  induction hp with
  | nil => intro _; rfl
  | cons x p ih =>
    intro hnd
    rw [List.map_cons, List.nodup_cons] at hnd
    obtain ⟨x1, x2⟩ := x
    show (if x1 = k then some x2 else _) = (if x1 = k then some x2 else _)
    by_cases hx : x1 = k
    · rw [if_pos hx, if_pos hx]
    · rw [if_neg hx, if_neg hx, ih hnd.2]
  | swap a b l =>
    intro hnd
    obtain ⟨a1, a2⟩ := a
    obtain ⟨b1, b2⟩ := b
    rw [List.map_cons, List.map_cons, List.nodup_cons, List.mem_cons] at hnd
    have hne : b1 ≠ a1 := fun hh => hnd.1 (Or.inl hh)
    by_cases hb : b1 = k <;> by_cases ha : a1 = k
    · exact absurd (hb.trans ha.symm) hne
    · simp [lookupF, hb, ha]
    · simp [lookupF, hb, ha]
    · simp [lookupF, hb, ha]
  | trans p1 p2 ih1 ih2 =>
    intro hnd
    rw [ih1 hnd, ih2 ((p1.map Prod.fst).nodup_iff.mp hnd)]

theorem lookupF_canonFields (R : Record) (k : String) :
    lookupF (canonFields R) k = (lookupF R k).map canonV := by
  induction R with
  | nil => rfl
  | cons p t ih =>
    obtain ⟨k0, v⟩ := p
    show (if k0 = k then some (canonV v) else _) = _
    by_cases h : k0 = k
    · rw [if_pos h]
      show _ = (if k0 = k then some v else lookupF t k).map canonV
      rw [if_pos h]
      rfl
    · rw [if_neg h]
      show _ = (if k0 = k then some v else lookupF t k).map canonV
      rw [if_neg h, ih]

theorem lookup_of_canon_eq (R1 R2 : Record)
    (h : canonV (.vObj R1) = canonV (.vObj R2))
    (hnd1 : (R1.map Prod.fst).Nodup) (hnd2 : (R2.map Prod.fst).Nodup) (k : String) :
    (lookupF R1 k).map canonV = (lookupF R2 k).map canonV := by
  rw [canonV_obj, canonV_obj] at h
  injection h with hs
  have hn1 : ((sortFields (canonFields R1)).map Prod.fst).Nodup := by
    have hp : ((sortFields (canonFields R1)).map Prod.fst).Perm (R1.map Prod.fst) := by
      have := (sortFields_perm (canonFields R1)).map Prod.fst
      rwa [map_fst_canonFields] at this
    exact hp.symm.nodup hnd1
  have hn2 : ((sortFields (canonFields R2)).map Prod.fst).Nodup := by
    have hp : ((sortFields (canonFields R2)).map Prod.fst).Perm (R2.map Prod.fst) := by
      have := (sortFields_perm (canonFields R2)).map Prod.fst
      rwa [map_fst_canonFields] at this
    exact hp.symm.nodup hnd2
  calc (lookupF R1 k).map canonV
      = lookupF (canonFields R1) k := (lookupF_canonFields R1 k).symm
    _ = lookupF (sortFields (canonFields R1)) k :=
        (lookupF_perm k (sortFields_perm (canonFields R1)) hn1).symm
    _ = lookupF (sortFields (canonFields R2)) k := by rw [hs]
    _ = lookupF (canonFields R2) k :=
        lookupF_perm k (sortFields_perm (canonFields R2)) hn2
    _ = (lookupF R2 k).map canonV := lookupF_canonFields R2 k

/-- Claim C7: `record_signature` is deterministic — two records holding the
same field bindings, in any insertion order, have equal signatures — and
discriminating — two records that differ in at least one field value (values
compared as Python `==` compares parsed JSON, i.e. up to the canonical
key-sorted form) have different signatures. -/
theorem claim7_signature_determinism_discrimination (R1 R2 : Record)
    (hnd1 : (R1.map Prod.fst).Nodup) (hnd2 : (R2.map Prod.fst).Nodup) :
    (R1.Perm R2 → record_signature R1 = record_signature R2)
    ∧ ((∃ k, (lookupF R1 k).map canonV ≠ (lookupF R2 k).map canonV) →
        record_signature R1 ≠ record_signature R2) := by
  constructor
  · intro hp
    exact record_signature_perm R1 R2 hp hnd1
  · rintro ⟨k, hk⟩ hsig
    apply hk
    unfold record_signature at hsig
    have hdata : serV (canonV (.vObj R1)) = serV (canonV (.vObj R2)) := by
      injection hsig
    have hinj := serV_prefix_inj (canonV (.vObj R1)) (canonV (.vObj R2)) [] []
      (by rw [List.append_nil, List.append_nil, hdata])
      (fun c cs hh => List.noConfusion hh) (fun c cs hh => List.noConfusion hh)
    exact lookup_of_canon_eq R1 R2 hinj.1 hnd1 hnd2 k

/-- Witness for C7 at a concrete input: two field orders of the same record
give the same signature. -/
theorem claim7_witness :
    record_signature [("a", Value.vInt 1), ("b", Value.vStr "x")]
      = record_signature [("b", Value.vStr "x"), ("a", Value.vInt 1)] :=
  (claim7_signature_determinism_discrimination
    [("a", Value.vInt 1), ("b", Value.vStr "x")]
    [("b", Value.vStr "x"), ("a", Value.vInt 1)]
    (by decide) (by decide)).1
    (List.Perm.swap ("b", Value.vStr "x") ("a", Value.vInt 1) [])
